import Mathlib

/-!
# Verification of the DABO CPM scheduling engine

A shallow embedding in Lean 4 of `src/scheduling/cpm_engine.py` and
`src/scheduling/predecessor_logic.py`, together with theorems settling the
specification claims about the engine.

Conventions of the embedding:

* Python `int` becomes `Int` (arbitrary precision in both languages, no
  overflow to model).
* The mutable list of `Activity` dataclass instances becomes an immutable
  `List Activity` that is threaded through each pass; an in-place field
  assignment through the `act_map` dictionary becomes `updAct`.
* `act_map` lookups (`act_map.get(i)` / `act_map[i]`) become `getAct`, a
  first-match scan.  A Python dict built by comprehension keeps the last
  entry for a duplicated key; the two coincide when activity ids are
  unique, which is the regime of every theorem below (the data model
  requires unique ids).
* Python's `datetime` is embedded as the number of days since 1970-01-01,
  so `weekday()` (Monday = 0) becomes `(d + 3) % 7` because 1970-01-01 was
  a Thursday.
* Unbounded loops (`while`, recursion of the DFS) are given an explicit
  fuel argument that provably dominates the number of iterations the
  Python loop performs.
-/

namespace Dabo

/-- One entry of an activity's `predecessors` list: the Python dict
`{"activity_id": ..., "rel_type": ..., "lag": ...}`.  The engine reads the
two optional keys with `pred.get("rel_type", "FS")` and
`pred.get("lag", 0)`; a dict missing a key is represented by storing the
default, so both fields are total here. -/
structure PredEntry where
  activity_id : String
  rel_type : String := "FS"
  lag : Int := 0
  deriving DecidableEq, Repr

/-- The `Activity` dataclass of `cpm_engine.py` with its field defaults. -/
structure Activity where
  activity_id : String
  activity_name : String := ""
  wbs : String := ""
  duration : Int := 0
  predecessors : List PredEntry := []
  successors : List String := []
  early_start : Int := 0
  early_finish : Int := 0
  late_start : Int := 0
  late_finish : Int := 0
  total_float : Int := 0
  is_critical : Bool := false
  is_milestone : Bool := false
  deriving DecidableEq, Repr

/-- `act_map.get(i)`: find the activity with the given id. -/
def getAct : List Activity → String → Option Activity
  | [], _ => none
  | a :: rest, i => if a.activity_id = i then some a else getAct rest i

/-- An in-place field update of the activity with id `i` (a mutation
through `act_map` in the Python source). -/
def updAct (st : List Activity) (i : String) (f : Activity → Activity) : List Activity :=
  st.map (fun a => if a.activity_id = i then f a else a)

/-- The ids of the activities, in list order. -/
def actIds (acts : List Activity) : List String :=
  acts.map (fun a => a.activity_id)

/-! ## `predecessor_logic.py` -/

/-- The error messages that `validate_predecessors` emits for one
activity's predecessor list (inner loop of the source). -/
def predErrors (ids : List String) (aid : String) : List PredEntry → List String
  | [] => []
  | p :: rest =>
    ((if p.activity_id ∈ ids then []
      else ["Activity " ++ aid ++ " references nonexistent predecessor " ++ p.activity_id]) ++
     (if p.activity_id = aid then ["Activity " ++ aid ++ " references itself as predecessor"]
      else []) ++
     (if p.rel_type = "FS" ∨ p.rel_type = "SS" ∨ p.rel_type = "FF" ∨ p.rel_type = "SF" then []
      else ["Activity " ++ aid ++ ": invalid relationship type " ++ p.rel_type])) ++
    predErrors ids aid rest

/-- `validate_predecessors`: every check is reported, none aborts. -/
def validate_predecessors (acts : List Activity) : List String :=
  acts.foldr (fun a r => predErrors (actIds acts) a.activity_id a.predecessors ++ r) []

/-- The predecessor ids the DFS of `detect_cycles` follows from node `u`
(`act_map.get(act_id)`, then the `activity_id` of each predecessor entry;
an id without an activity contributes no outgoing edges). -/
def predIds (acts : List Activity) (u : String) : List String :=
  match getAct acts u with
  | some a => a.predecessors.map (fun p => p.activity_id)
  | none => []

/-- Total number of predecessor entries over all activities (used to
bound the fuel of the unbounded loops below). -/
def totalPreds (st : List Activity) : Nat :=
  (st.map (fun a => a.predecessors.length)).sum

/-- Every id the DFS can ever visit: the activity ids and every id named
as a predecessor. -/
def mentionedIds (acts : List Activity) : List String :=
  actIds acts ++ acts.foldr (fun a r => a.predecessors.map (fun p => p.activity_id) ++ r) []

mutual

/-- The recursive `dfs` of `detect_cycles`.  `visited` and the recursion
stack are threaded explicitly; the stack entries of the enclosing calls
form `stack`.  The fuel argument only forces termination: it decreases on
every call, and the fuel `detect_cycles` passes provably dominates the
total number of steps the Python recursion performs, so the `fuel = 0`
branches are never reached from `detect_cycles`. -/
def dfsVisit (acts : List Activity) : Nat → String → List String → List String →
    Bool × List String
  | 0, _, visited, _ => (false, visited)
  | fuel + 1, u, visited, stack =>
    dfsScan acts fuel (predIds acts u) (u :: visited) (u :: stack)

/-- The `for pred in act.predecessors` loop body of `dfs`: scan the
outgoing edges of the node on top of `stack`. -/
def dfsScan (acts : List Activity) : Nat → List String → List String → List String →
    Bool × List String
  | 0, _, visited, _ => (false, visited)
  | _ + 1, [], visited, _ => (false, visited)
  | fuel + 1, pid :: rest, visited, stack =>
    if pid ∈ visited then
      if pid ∈ stack then (true, visited)
      else dfsScan acts fuel rest visited stack
    else
      match dfsVisit acts fuel pid visited stack with
      | (true, v) => (true, v)
      | (false, v) => dfsScan acts fuel rest v stack

end

/-- The fuel `detect_cycles` hands to the DFS; it dominates the step
count of any call `dfsVisit acts _ u visited stack` with `u` unvisited
and mentioned. -/
def dfsFuel (acts : List Activity) : Nat :=
  ((mentionedIds acts).length + 1) * (totalPreds acts + 1)

/-- The `for act in activities` driver loop of `detect_cycles`. -/
def detectLoop (acts : List Activity) : List Activity → List String → Bool
  | [], _ => false
  | a :: rest, visited =>
    if a.activity_id ∈ visited then detectLoop acts rest visited
    else
      match dfsVisit acts (dfsFuel acts) a.activity_id visited [] with
      | (true, _) => true
      | (false, v) => detectLoop acts rest v

/-- `detect_cycles`: True iff the DFS finds a back edge. -/
def detect_cycles (acts : List Activity) : Bool :=
  detectLoop acts acts []

/-! ## `cpm_engine.py`: successor building -/

/-- Append `succId` to the successor list of the activity `predId` unless
it is already present (the body of the successor-building loop; a
`predId` with no activity is skipped, as `act_map.get` returns `None`). -/
def addSuccOnce (st : List Activity) (predId succId : String) : List Activity :=
  st.map (fun a =>
    if a.activity_id = predId ∧ succId ∉ a.successors then
      { a with successors := a.successors ++ [succId] }
    else a)

/-- The `(predecessor id, successor id)` pairs the successor-building loop
visits, in visiting order. -/
def succPairs (acts : List Activity) : List (String × String) :=
  acts.foldr (fun act r =>
    act.predecessors.map (fun p => (p.activity_id, act.activity_id)) ++ r) []

/-- The successor-building loop of `compute_cpm`: for every activity, add
its id to each existing predecessor's `successors` (deduplicated). -/
def buildSuccessors (acts : List Activity) : List Activity :=
  (succPairs acts).foldl (fun st pr => addSuccOnce st pr.1 pr.2) acts

/-! ## `cpm_engine.py`: topological sort -/

/-- Python's dict-key list: the first occurrence of each id, in order,
skipping ids already seen. -/
def dictKeysAux : List String → List String → List String
  | [], _ => []
  | x :: rest, seen =>
    if x ∈ seen then dictKeysAux rest seen else x :: dictKeysAux rest (x :: seen)

/-- The key list of a Python dict built from these ids. -/
def dictKeys (l : List String) : List String := dictKeysAux l []

/-- How many predecessor entries of `a` name an existing activity. -/
def validPredCount (st : List Activity) (a : Activity) : Nat :=
  (a.predecessors.filter (fun p => (getAct st p.activity_id).isSome)).length

/-- The initial `in_degree[v]` of `_topological_sort`: one per predecessor
entry (of any activity with id `v`) whose predecessor exists. -/
def inDeg (st : List Activity) (v : String) : Int :=
  ((st.filter (fun a => a.activity_id = v)).map
    (fun a => (validPredCount st a : Int))).sum

/-- Decrement the in-degree of each successor in turn, enqueueing a
successor exactly when its in-degree reaches zero (the inner loop of
Kahn's algorithm; the queue is FIFO, so new entries go to the back). -/
def decAll : List String → (String → Int) → List String → (String → Int) × List String
  | [], deg, queue => (deg, queue)
  | s :: rest, deg, queue =>
    let deg2 := fun v => if v = s then deg v - 1 else deg v
    if deg2 s = 0 then decAll rest deg2 (queue ++ [s]) else decAll rest deg2 queue

/-- The `while queue:` loop of `_topological_sort`.  Fuel dominates the
iteration count (each iteration pops one element and total enqueues are
bounded by the initial in-degrees), so the `fuel = 0` branch is
unreachable for the fuel `_topological_sort` passes.  A popped id with no
activity would raise `KeyError` in Python; it cannot occur because the
queue only ever holds activity ids. -/
def kahnLoop (st : List Activity) : Nat → List String → (String → Int) → List String →
    List String
  | 0, _, _, order => order
  | _ + 1, [], _, order => order
  | fuel + 1, current :: qrest, deg, order =>
    match getAct st current with
    | none => kahnLoop st fuel qrest deg (order ++ [current])
    | some act =>
      let p := decAll act.successors deg qrest
      kahnLoop st fuel p.2 p.1 (order ++ [current])

/-- `_topological_sort`: Kahn's algorithm with a FIFO queue, then the
fallback that appends every id not reached (checking against the growing
order, as the Python loop does). -/
def _topological_sort (st : List Activity) : List String :=
  let keys := dictKeys (actIds st)
  let queue0 := keys.filter (fun v => inDeg st v = 0)
  let kahn := kahnLoop st (keys.length + totalPreds st + 1) queue0 (inDeg st) []
  st.foldl (fun ord a => if a.activity_id ∈ ord then ord else ord ++ [a.activity_id]) kahn

/-! ## `cpm_engine.py`: forward pass -/

/-- The candidate early start one predecessor edge contributes in the
forward pass: the `if rel == ...` chain of `compute_cpm`.  `dur` is the
duration of the activity being scheduled; every relation other than
`"FS"`, `"SS"`, `"FF"` takes the final `else` branch. -/
def fwdCandidate (rel : String) (lag : Int) (predAct : Activity) (dur : Int) : Int :=
  if rel = "FS" then predAct.early_finish + lag
  else if rel = "SS" then predAct.early_start + lag
  else if rel = "FF" then predAct.early_finish + lag - dur
  else predAct.early_finish + lag

/-- The `max_es` accumulation over the predecessor entries (entries whose
predecessor does not exist are skipped). -/
def fwdFold (st : List Activity) (dur : Int) : List PredEntry → Int → Int
  | [], m => m
  | p :: rest, m =>
    match getAct st p.activity_id with
    | none => fwdFold st dur rest m
    | some pa => fwdFold st dur rest (max m (fwdCandidate p.rel_type p.lag pa dur))

/-- The `early_start` the forward pass assigns: 0 without predecessors,
otherwise the `max_es` fold started at 0. -/
def esVal (st : List Activity) (act : Activity) : Int :=
  if act.predecessors = [] then 0 else fwdFold st act.duration act.predecessors 0

/-- One forward-pass iteration: set `early_start` and then
`early_finish = early_start + duration`. -/
def forwardStep (st : List Activity) (actId : String) : List Activity :=
  match getAct st actId with
  | none => st
  | some act =>
    updAct st actId (fun a =>
      { a with early_start := esVal st act, early_finish := esVal st act + a.duration })

/-- The forward pass: process the ids in sequencer order. -/
def runForward : List Activity → List String → List Activity
  | st, [] => st
  | st, i :: rest => runForward (forwardStep st i) rest

/-- `project_finish = max(a.early_finish for a in activities)` (the list is
non-empty whenever this is evaluated, thanks to the guard in
`compute_cpm`). -/
def projectFinish (st : List Activity) : Int :=
  match st with
  | [] => 0
  | a :: rest => rest.foldl (fun m b => max m b.early_finish) a.early_finish

/-! ## `cpm_engine.py`: backward pass -/

/-- The candidate late finish derived from one successor in the backward
pass: the `if rel == ...` chain.  `dur` is the duration of the activity
whose late finish is being computed; every relation other than `"FS"`,
`"SS"`, `"FF"` takes the final `else` branch. -/
def bwdCandidate (rel : String) (lag : Int) (succ : Activity) (dur : Int) : Int :=
  if rel = "FS" then succ.late_start - lag
  else if rel = "SS" then succ.late_start - lag + dur
  else if rel = "FF" then succ.late_finish - lag
  else succ.late_start - lag

/-- The first predecessor entry of a successor that names this activity
(the inner `for pred in succ.predecessors ... break` loop). -/
def findPredEntry : List PredEntry → String → Option PredEntry
  | [], _ => none
  | p :: rest, i => if p.activity_id = i then some p else findPredEntry rest i

/-- The `min_lf` accumulation over the successor ids: a successor with no
activity, or one whose predecessor list does not name this activity,
contributes nothing. -/
def bwdFold (st : List Activity) (actId : String) (dur : Int) : List String → Int → Int
  | [], m => m
  | sid :: rest, m =>
    match getAct st sid with
    | none => bwdFold st actId dur rest m
    | some succ =>
      match findPredEntry succ.predecessors actId with
      | none => bwdFold st actId dur rest m
      | some p => bwdFold st actId dur rest (min m (bwdCandidate p.rel_type p.lag succ dur))

/-- The `late_finish` the backward pass assigns: `project_finish` without
successors, otherwise the `min_lf` fold seeded with `project_finish`. -/
def lfVal (pf : Int) (st : List Activity) (actId : String) (act : Activity) : Int :=
  if act.successors = [] then pf else bwdFold st actId act.duration act.successors pf

/-- One backward-pass iteration: set `late_finish`, then `late_start`,
`total_float` and `is_critical` are derived. -/
def backwardStep (pf : Int) (st : List Activity) (actId : String) : List Activity :=
  match getAct st actId with
  | none => st
  | some act =>
    updAct st actId (fun a =>
      { a with late_finish := lfVal pf st actId act,
               late_start := lfVal pf st actId act - a.duration,
               total_float := lfVal pf st actId act - a.duration - a.early_start,
               is_critical := decide (lfVal pf st actId act - a.duration - a.early_start = 0) })

/-- The backward pass: process the ids in reverse sequencer order. -/
def runBackward (pf : Int) : List Activity → List String → List Activity
  | st, [] => st
  | st, i :: rest => runBackward pf (backwardStep pf st i) rest

/-- `compute_cpm`: empty guard, successor building, topological sort,
forward pass, project finish, backward pass. -/
def compute_cpm (acts : List Activity) : List Activity :=
  if acts = [] then acts
  else
    let st1 := buildSuccessors acts
    let order := _topological_sort st1
    let st2 := runForward st1 order
    runBackward (projectFinish st2) st2 order.reverse

/-! ## `cpm_engine.py`: calendar mapping -/

/-- `weekday()` of a date given as days since 1970-01-01 (a Thursday),
with Python's convention Monday = 0. -/
def weekday (d : Int) : Int := (d + 3) % 7

/-- The `while days_added < day_number` loop of `day_to_date`.  Each
iteration advances the date by one day and counts it unless weekends are
skipped and the day is Saturday or Sunday.  Fuel dominates the iteration
count (at least five of any seven consecutive days are counted). -/
def dayToDateAux (skip : Bool) (target : Int) : Nat → Int → Int → Int
  | 0, current, _ => current
  | fuel + 1, current, daysAdded =>
    if daysAdded < target then
      let c := current + 1
      if skip ∧ 5 ≤ weekday c then dayToDateAux skip target fuel c daysAdded
      else dayToDateAux skip target fuel c (daysAdded + 1)
    else current

/-- `day_to_date`: convert a working-day number to a calendar date
(days since 1970-01-01). -/
def day_to_date (dayNumber : Int) (startDate : Int) (skipWeekends : Bool := true) : Int :=
  dayToDateAux skipWeekends dayNumber (dayNumber.toNat * 7 + 7) startDate 0

/-- Days since 1970-01-01 of a Gregorian calendar date (the standard
days-from-civil computation), to write concrete dates readably. -/
def epochDay (y m d : Int) : Int :=
  let y2 := if m ≤ 2 then y - 1 else y
  let era := y2 / 400
  let yoe := y2 - era * 400
  let mp := (m + 9) % 12
  let doy := (153 * mp + 2) / 5 + d - 1
  let doe := yoe * 365 + yoe / 4 - yoe / 100 + doy
  era * 146097 + doe - 719468

/-! ## The predecessor graph -/

/-- `Edge acts u v`: the activity `u` declares `v` as a predecessor (the
edge orientation of the graph the DFS of `detect_cycles` walks). -/
def Edge (acts : List Activity) (u v : String) : Prop :=
  v ∈ predIds acts u

/-- `Edge` restricted to predecessor ids that exist in the list. -/
def EdgeR (acts : List Activity) (u v : String) : Prop :=
  v ∈ predIds acts u ∧ v ∈ actIds acts

/-- A directed cycle in the predecessor graph, restricted to edges whose
predecessor id exists (a self-loop is the one-step case). -/
def HasCycle (acts : List Activity) : Prop :=
  ∃ u, Relation.TransGen (EdgeR acts) u u

/-! ## Concrete inputs used by witnesses and counterexamples -/

/-- A bare activity with a duration and predecessor entries. -/
def mkActivity (i : String) (d : Int) (ps : List PredEntry) : Activity :=
  { activity_id := i, duration := d, predecessors := ps }

/-- `A` (duration 5) and `B` whose only predecessor entry is an `SS` edge
to `A` with lag 2 (the example of the relationship-type test). -/
def exSS : List Activity :=
  [mkActivity "A" 5 [], mkActivity "B" 3 [{ activity_id := "A", rel_type := "SS", lag := 2 }]]

/-- `A` (duration 2) and `B` (duration 3) whose only predecessor entry is
an `SF` edge to `A` with lag 0. -/
def exSF : List Activity :=
  [mkActivity "A" 2 [], mkActivity "B" 3 [{ activity_id := "A", rel_type := "SF", lag := 0 }]]

/-- A valid input (unique ids, acyclic, no duplicate edges): `A` duration
2, `B` duration 3 after `A` with lag 1, plus disconnected `C`. -/
def chainEx : List Activity :=
  [mkActivity "A" 2 [], mkActivity "B" 3 [{ activity_id := "A", rel_type := "FS", lag := 1 }],
   mkActivity "C" 1 []]

/-- An acyclic input that passes `validate_predecessors` and
`detect_cycles` but has a duplicate predecessor edge: `S` names `X` twice,
so Kahn's in-degree count (2) exceeds the single deduplicated successor
entry and `S`, `T` are only reached by the fallback, in list order,
placing `T` before its predecessor `S`. -/
def dupEx : List Activity :=
  [mkActivity "X" 5 [],
   mkActivity "T" 1 [{ activity_id := "S" }],
   mkActivity "S" 1 [{ activity_id := "X" }, { activity_id := "X" }]]

/-- `B` with a single `FS` predecessor edge to `A` with lag `-5`: its only
forward candidate is negative. -/
def cexFwd : List Activity :=
  [mkActivity "A" 1 [], mkActivity "B" 0 [{ activity_id := "A", lag := -5 }]]

/-- A three-cycle `A → C → B → A` in the predecessor graph. -/
def cyc3 : List Activity :=
  [mkActivity "A" 1 [{ activity_id := "C" }],
   mkActivity "B" 1 [{ activity_id := "A" }],
   mkActivity "C" 1 [{ activity_id := "B" }]]

/-! ## Auxiliary notions for the DFS proofs -/

/-- How many mentioned ids (deduplicated) are not yet visited: the
quantity that shrinks whenever the DFS visits a node. -/
def unvisitedCount (acts : List Activity) (visited : List String) : Nat :=
  (((mentionedIds acts).dedup).filter (fun x => x ∉ visited)).length

/-- The recursion stack of the DFS read as a path: each entry is a
predecessor of the entry below it. -/
def StackChain (acts : List Activity) (stack : List String) : Prop :=
  List.Chain' (fun x y => Edge acts y x) stack

/-- Finished nodes (visited and popped off the recursion stack) only have
edges into finished nodes. -/
def ClosedFin (acts : List Activity) (visited stack : List String) : Prop :=
  ∀ v, v ∈ visited → v ∉ stack → ∀ p ∈ predIds acts v, p ∈ visited ∧ p ∉ stack

/-- No cycle passes through a finished node. -/
def AcycFin (acts : List Activity) (visited stack : List String) : Prop :=
  ∀ v, v ∈ visited → v ∉ stack → ¬ Relation.TransGen (Edge acts) v v

/-- The invariant the DFS maintains whenever it returns `False`. -/
def DfsInv (acts : List Activity) (visited stack : List String) : Prop :=
  ClosedFin acts visited stack ∧ AcycFin acts visited stack

/-- The existing predecessor ids of `v`: the predecessor entries (of the
activity with id `v`) whose id has an activity.  These are exactly the
edges Kahn's in-degree counts and the successor builder materializes. -/
def exPreds (st : List Activity) (v : String) : List String :=
  (predIds st v).filter (fun p => (getAct st p).isSome)

/-- The sum of the clamped in-degrees over all activity ids — together
with the queue length, a measure that strictly decreases on every
iteration of the Kahn loop. -/
def degSum (st : List Activity) (deg : String → Int) : Nat :=
  ((actIds st).map (fun v => (deg v).toNat)).sum

/-! ## Basic lemmas about the state representation -/

theorem mem_actIds {st : List Activity} {i : String} :
    i ∈ actIds st ↔ ∃ a ∈ st, a.activity_id = i := by
  simp [actIds]

theorem getAct_eq_some {st : List Activity} {i : String} {a : Activity} :
    getAct st i = some a → a ∈ st ∧ a.activity_id = i := by
  induction st with
  | nil => intro h; cases h
  | cons b rest ih =>
    intro h
    rw [getAct] at h
    by_cases hb : b.activity_id = i
    · rw [if_pos hb] at h
      cases h
      exact ⟨List.mem_cons_self _ _, hb⟩
    · rw [if_neg hb] at h
      rcases ih h with ⟨hmem, hid⟩
      exact ⟨List.mem_cons_of_mem _ hmem, hid⟩

theorem getAct_eq_none {st : List Activity} {i : String} :
    getAct st i = none ↔ i ∉ actIds st := by
  induction st with
  | nil => simp [getAct, actIds]
  | cons b rest ih =>
    rw [getAct]
    by_cases hb : b.activity_id = i
    · simp [if_pos hb, actIds, hb]
    · simp only [if_neg hb, ih, actIds, List.map_cons, List.mem_cons]
      constructor
      · intro h hmem
        rcases hmem with h1 | h2
        · exact hb h1.symm
        · exact h (by simpa [actIds] using h2)
      · intro h hmem
        exact h (Or.inr (by simpa [actIds] using hmem))

theorem getAct_isSome {st : List Activity} {i : String} :
    (getAct st i).isSome ↔ i ∈ actIds st := by
  constructor
  · intro hs
    rcases Option.isSome_iff_exists.mp hs with ⟨a, ha⟩
    rcases getAct_eq_some ha with ⟨hmem, hid⟩
    exact mem_actIds.mpr ⟨a, hmem, hid⟩
  · intro hmem
    rcases h : getAct st i with _ | a
    · exact absurd hmem (getAct_eq_none.mp h)
    · rfl

theorem getAct_of_mem {st : List Activity} (hN : (actIds st).Nodup) {a : Activity}
    (ha : a ∈ st) : getAct st a.activity_id = some a := by
  induction st with
  | nil => cases ha
  | cons b rest ih =>
    rw [actIds, List.map_cons, List.nodup_cons] at hN
    rcases List.mem_cons.mp ha with h | h
    · rw [getAct, h, if_pos rfl]
    · rw [getAct]
      by_cases hb : b.activity_id = a.activity_id
      · exfalso
        exact hN.1 (hb ▸ mem_actIds.mpr ⟨a, h, rfl⟩)
      · rw [if_neg hb]
        exact ih hN.2 h

theorem getAct_map {g : Activity → Activity} (hg : ∀ a, (g a).activity_id = a.activity_id)
    (st : List Activity) (i : String) :
    getAct (st.map g) i = (getAct st i).map g := by
  induction st with
  | nil => rfl
  | cons b rest ih =>
    rw [List.map_cons, getAct, getAct, hg b]
    by_cases hb : b.activity_id = i
    · rw [if_pos hb, if_pos hb]; rfl
    · rw [if_neg hb, if_neg hb, ih]

theorem actIds_map {g : Activity → Activity} (hg : ∀ a, (g a).activity_id = a.activity_id)
    (st : List Activity) : actIds (st.map g) = actIds st := by
  unfold actIds
  rw [List.map_map]
  exact List.map_congr_left (fun a _ => hg a)

theorem getAct_updAct {f : Activity → Activity} (hf : ∀ a, (f a).activity_id = a.activity_id)
    (st : List Activity) (i j : String) :
    getAct (updAct st i f) j = if j = i then (getAct st j).map f else getAct st j := by
  unfold updAct
  rw [getAct_map (fun a => by by_cases h : a.activity_id = i <;> simp [h, hf])]
  by_cases hij : j = i
  · rw [if_pos hij]
    rcases h : getAct st j with _ | a
    · rfl
    · rcases getAct_eq_some h with ⟨_, hid⟩
      simp [hid, hij]
  · rw [if_neg hij]
    rcases h : getAct st j with _ | a
    · rfl
    · rcases getAct_eq_some h with ⟨_, hid⟩
      have : ¬a.activity_id = i := fun hc => hij (hid ▸ hc)
      simp [this]

theorem actIds_updAct {f : Activity → Activity} (hf : ∀ a, (f a).activity_id = a.activity_id)
    (st : List Activity) (i : String) : actIds (updAct st i f) = actIds st :=
  actIds_map (fun a => by by_cases h : a.activity_id = i <;> simp [h, hf]) st

/-! ## Characterization of `buildSuccessors` -/

theorem buildFold_eq_map (pairs : List (String × String)) :
    ∀ st : List Activity, ∃ G : Activity → Activity,
      pairs.foldl (fun st pr => addSuccOnce st pr.1 pr.2) st = st.map G ∧
      ∀ a, { a with successors := (G a).successors } = G a := by
  induction pairs with
  | nil =>
    intro st
    exact ⟨id, (List.map_id st).symm, fun a => rfl⟩
  | cons pr rest ih =>
    intro st
    rcases ih (addSuccOnce st pr.1 pr.2) with ⟨G, hG, hGs⟩
    refine ⟨fun a => G (if a.activity_id = pr.1 ∧ pr.2 ∉ a.successors then
      { a with successors := a.successors ++ [pr.2] } else a), ?_, ?_⟩
    · rw [List.foldl_cons, hG, addSuccOnce, List.map_map]
      rfl
    · intro a
      dsimp only
      by_cases h : a.activity_id = pr.1 ∧ pr.2 ∉ a.successors
      · rw [if_pos h]
        simpa using hGs { a with successors := a.successors ++ [pr.2] }
      · rw [if_neg h]
        exact hGs a

theorem buildSuccessors_eq_map (acts : List Activity) :
    ∃ G : Activity → Activity,
      buildSuccessors acts = acts.map G ∧
      ∀ a, { a with successors := (G a).successors } = G a :=
  buildFold_eq_map _ acts

theorem mem_succPairs {acts : List Activity} {p s : String} :
    (p, s) ∈ succPairs acts ↔
      ∃ act ∈ acts, act.activity_id = s ∧ ∃ e ∈ act.predecessors, e.activity_id = p := by
  induction acts with
  | nil => simp [succPairs]
  | cons a rest ih =>
    rw [succPairs, List.foldr_cons, List.mem_append]
    constructor
    · intro h
      rcases h with h | h
      · rcases List.mem_map.mp h with ⟨e, he, heq⟩
        refine ⟨a, List.mem_cons_self _ _, ?_, e, he, ?_⟩
        · exact (Prod.mk.injEq _ _ _ _ ▸ heq).2
        · exact (Prod.mk.injEq _ _ _ _ ▸ heq).1
      · rcases ih.mp h with ⟨act, hmem, hid, e, he, hep⟩
        exact ⟨act, List.mem_cons_of_mem _ hmem, hid, e, he, hep⟩
    · rintro ⟨act, hmem, hid, e, he, hep⟩
      rcases List.mem_cons.mp hmem with h | h
      · subst h
        exact Or.inl (List.mem_map.mpr ⟨e, he, by rw [hep, hid]⟩)
      · exact Or.inr (ih.mpr ⟨act, h, hid, e, he, hep⟩)

theorem length_addSuccOnce (st : List Activity) (p s : String) :
    (addSuccOnce st p s).length = st.length := by
  simp [addSuccOnce]

theorem length_buildFold (pairs : List (String × String)) :
    ∀ st : List Activity,
      (pairs.foldl (fun st pr => addSuccOnce st pr.1 pr.2) st).length = st.length := by
  induction pairs with
  | nil => intro st; rfl
  | cons pr rest ih => intro st; rw [List.foldl_cons, ih, length_addSuccOnce]

theorem length_buildSuccessors (acts : List Activity) :
    (buildSuccessors acts).length = acts.length :=
  length_buildFold _ _

theorem length_updAct (st : List Activity) (i : String) (f : Activity → Activity) :
    (updAct st i f).length = st.length := by
  simp [updAct]

theorem length_forwardStep (st : List Activity) (i : String) :
    (forwardStep st i).length = st.length := by
  unfold forwardStep
  cases getAct st i with
  | none => rfl
  | some a => exact length_updAct _ _ _

theorem length_runForward (order : List String) :
    ∀ st : List Activity, (runForward st order).length = st.length := by
  induction order with
  | nil => intro st; rfl
  | cons i rest ih => intro st; rw [runForward, ih, length_forwardStep]

theorem length_backwardStep (pf : Int) (st : List Activity) (i : String) :
    (backwardStep pf st i).length = st.length := by
  unfold backwardStep
  cases getAct st i with
  | none => rfl
  | some a => exact length_updAct _ _ _

theorem length_runBackward (pf : Int) (order : List String) :
    ∀ st : List Activity, (runBackward pf st order).length = st.length := by
  induction order with
  | nil => intro st; rfl
  | cons i rest ih => intro st; rw [runBackward, ih, length_backwardStep]

theorem length_compute_cpm (acts : List Activity) :
    (compute_cpm acts).length = acts.length := by
  unfold compute_cpm
  by_cases h : acts = []
  · simp [h]
  · rw [if_neg h, length_runBackward, length_runForward, length_buildSuccessors]

theorem addSuccOnce_succs {st : List Activity} {done : List (String × String)}
    (pr : String × String)
    (h : ∀ p a, getAct st p = some a →
      a.successors.Nodup ∧ (∀ s, s ∈ a.successors ↔ (p, s) ∈ done)) :
    ∀ p a, getAct (addSuccOnce st pr.1 pr.2) p = some a →
      a.successors.Nodup ∧ (∀ s, s ∈ a.successors ↔ (p, s) ∈ done ++ [pr]) := by
  intro p a ha
  have hg : ∀ b : Activity,
      ((if b.activity_id = pr.1 ∧ pr.2 ∉ b.successors then
        { b with successors := b.successors ++ [pr.2] } else b) : Activity).activity_id
        = b.activity_id := by
    intro b
    by_cases hc : b.activity_id = pr.1 ∧ pr.2 ∉ b.successors <;> simp [hc]
  rw [addSuccOnce, getAct_map hg] at ha
  rcases hb : getAct st p with _ | b
  · rw [hb] at ha; cases ha
  · rw [hb] at ha
    have hbp : b.activity_id = p := (getAct_eq_some hb).2
    rcases h p b hb with ⟨hnd, hmem⟩
    simp only [Option.map_some'] at ha
    by_cases hc : b.activity_id = pr.1 ∧ pr.2 ∉ b.successors
    · rw [if_pos hc] at ha
      cases ha
      constructor
      · refine List.Nodup.append hnd (List.nodup_singleton _) ?_
        intro x hx hx2
        rw [List.mem_singleton] at hx2
        exact hc.2 (hx2 ▸ hx)
      · intro s
        simp only [List.mem_append, List.mem_singleton, hmem s, List.mem_append,
          List.mem_singleton]
        constructor
        · rintro (hs | hs)
          · exact Or.inl hs
          · exact Or.inr (by rw [hs, ← hbp, hc.1])
        · rintro (hs | hs)
          · exact Or.inl hs
          · refine Or.inr ?_
            have : p = pr.1 ∧ s = pr.2 := by
              constructor
              · exact congrArg Prod.fst hs
              · exact congrArg Prod.snd hs
            exact this.2
    · rw [if_neg hc] at ha
      cases ha
      refine ⟨hnd, fun s => ?_⟩
      rw [hmem s]
      simp only [List.mem_append, List.mem_singleton]
      constructor
      · exact fun hs => Or.inl hs
      · rintro (hs | hs)
        · exact hs
        · have hps : p = pr.1 ∧ s = pr.2 :=
            ⟨congrArg Prod.fst hs, congrArg Prod.snd hs⟩
          rw [Decidable.not_and_iff_or_not, Decidable.not_not] at hc
          rcases hc with hc | hc
          · exact absurd (hbp ▸ hps.1) hc
          · rw [hmem pr.2] at hc
            have : (p, s) = (p, pr.2) := by rw [hps.2]
            rw [← hps.2] at hc
            exact (hmem s).mp ((hmem s).mpr hc)

theorem buildFold_succs (pairs : List (String × String)) :
    ∀ (done : List (String × String)) (st : List Activity),
      (∀ p a, getAct st p = some a →
        a.successors.Nodup ∧ (∀ s, s ∈ a.successors ↔ (p, s) ∈ done)) →
      ∀ p a, getAct (pairs.foldl (fun st pr => addSuccOnce st pr.1 pr.2) st) p = some a →
        a.successors.Nodup ∧ (∀ s, s ∈ a.successors ↔ (p, s) ∈ done ++ pairs) := by
  induction pairs with
  | nil =>
    intro done st h p a ha
    rcases h p a ha with ⟨h1, h2⟩
    exact ⟨h1, by simpa using h2⟩
  | cons pr rest ih =>
    intro done st h p a ha
    rw [List.foldl_cons] at ha
    have := ih (done ++ [pr]) (addSuccOnce st pr.1 pr.2) (addSuccOnce_succs pr h) p a ha
    simpa using this

theorem buildSuccessors_succs {acts : List Activity}
    (hE : ∀ a ∈ acts, a.successors = []) :
    ∀ p a, getAct (buildSuccessors acts) p = some a →
      a.successors.Nodup ∧ (∀ s, s ∈ a.successors ↔ (p, s) ∈ succPairs acts) := by
  intro p a ha
  have base : ∀ p a, getAct acts p = some a →
      a.successors.Nodup ∧ (∀ s, s ∈ a.successors ↔ (p, s) ∈ ([] : List (String × String))) := by
    intro q b hb
    have : b.successors = [] := hE b (getAct_eq_some hb).1
    rw [this]
    exact ⟨List.nodup_nil, by simp⟩
  have := buildFold_succs (succPairs acts) [] acts base p a ha
  simpa using this

theorem build_preds (acts : List Activity) (p : String) :
    (getAct (buildSuccessors acts) p).map Activity.predecessors =
      (getAct acts p).map Activity.predecessors := by
  rcases buildSuccessors_eq_map acts with ⟨G, hmap, hGs⟩
  have hg : ∀ a, (G a).activity_id = a.activity_id :=
    fun a => by rw [← hGs a]
  rw [hmap, getAct_map hg, Option.map_map]
  congr 1
  funext a
  show (G a).predecessors = a.predecessors
  rw [← hGs a]

theorem build_duration (acts : List Activity) (p : String) :
    (getAct (buildSuccessors acts) p).map Activity.duration =
      (getAct acts p).map Activity.duration := by
  rcases buildSuccessors_eq_map acts with ⟨G, hmap, hGs⟩
  have hg : ∀ a, (G a).activity_id = a.activity_id :=
    fun a => by rw [← hGs a]
  rw [hmap, getAct_map hg, Option.map_map]
  congr 1
  funext a
  show (G a).duration = a.duration
  rw [← hGs a]

theorem actIds_build (acts : List Activity) :
    actIds (buildSuccessors acts) = actIds acts := by
  rcases buildSuccessors_eq_map acts with ⟨G, hmap, hGs⟩
  rw [hmap]
  exact actIds_map (fun a => by rw [← hGs a]) acts

theorem predIds_build (acts : List Activity) (v : String) :
    predIds (buildSuccessors acts) v = predIds acts v := by
  unfold predIds
  have h := build_preds acts v
  rcases h1 : getAct (buildSuccessors acts) v with _ | a <;>
    rcases h2 : getAct acts v with _ | b <;> rw [h1, h2] at h <;> simp at h ⊢
  exact h ▸ rfl

/-! ## The predecessor graph: basic lemmas -/

theorem edge_src_mem {acts : List Activity} {u v : String} (h : Edge acts u v) :
    u ∈ actIds acts := by
  unfold Edge predIds at h
  rcases hg : getAct acts u with _ | a
  · rw [hg] at h; cases h
  · exact mem_actIds.mpr ⟨a, (getAct_eq_some hg).1, (getAct_eq_some hg).2⟩

theorem transGen_chain {r : String → String → Prop} {a b : String}
    (h : Relation.TransGen r a b) : ∃ l, List.Chain r a (l ++ [b]) := by
  induction h using Relation.TransGen.head_induction_on with
  | base hr => exact ⟨[], List.Chain.cons hr List.Chain.nil⟩
  | ih hr _ ihh =>
    rcases ihh with ⟨l, hl⟩
    exact ⟨_ :: l, List.Chain.cons hr hl⟩

theorem chain_first {r : String → String → Prop} {x y : String} {t : List String}
    (h : List.Chain r x (y :: t)) : r x y :=
  (List.chain_cons.mp h).1

theorem chain_transGen {r : String → String → Prop} :
    ∀ (l : List String) (a b : String), List.Chain r a (l ++ [b]) →
      Relation.TransGen r a b := by
  intro l
  induction l with
  | nil => exact fun a b h => Relation.TransGen.single (chain_first h)
  | cons x t ih =>
    intro a b h
    rw [List.cons_append] at h
    rcases List.chain_cons.mp h with ⟨hax, hrest⟩
    exact Relation.TransGen.head hax (ih x b hrest)

theorem chain_edge_strengthen {acts : List Activity} :
    ∀ (l : List String) (a b : String), List.Chain (Edge acts) a (l ++ [b]) →
      b ∈ actIds acts → List.Chain (EdgeR acts) a (l ++ [b]) := by
  intro l
  induction l with
  | nil =>
    intro a b h hb
    rcases List.chain_cons.mp h with ⟨hab, _⟩
    exact List.Chain.cons ⟨hab, hb⟩ List.Chain.nil
  | cons x t ih =>
    intro a b h hb
    rw [List.cons_append] at h ⊢
    rcases List.chain_cons.mp h with ⟨hax, hrest⟩
    have hx : x ∈ actIds acts := by
      cases t with
      | nil => exact edge_src_mem (chain_first hrest)
      | cons y t2 => exact edge_src_mem (chain_first hrest)
    exact List.Chain.cons ⟨hax, hx⟩ (ih x b hrest hb)

theorem hasCycle_of_transGen {acts : List Activity} {u : String}
    (h : Relation.TransGen (Edge acts) u u) : HasCycle acts := by
  rcases transGen_chain h with ⟨l, hl⟩
  have hu : u ∈ actIds acts := by
    cases l with
    | nil => exact edge_src_mem (chain_first hl)
    | cons x t => exact edge_src_mem (chain_first hl)
  exact ⟨u, chain_transGen l u u (chain_edge_strengthen l u u hl hu)⟩

/-! ## `detect_cycles` returns True only on a cycle -/

theorem stack_reach {acts : List Activity} :
    ∀ (rest : List String) (c pid : String),
      StackChain acts (c :: rest) → pid ∈ c :: rest →
      pid = c ∨ Relation.TransGen (Edge acts) pid c := by
  intro rest
  induction rest with
  | nil =>
    intro c pid _ hmem
    rcases List.mem_cons.mp hmem with h | h
    · exact Or.inl h
    · cases h
  | cons d rest2 ih =>
    intro c pid hchain hmem
    have hdc : Edge acts d c := (List.chain'_cons.mp hchain).1
    have hrest : StackChain acts (d :: rest2) := (List.chain'_cons.mp hchain).2
    rcases List.mem_cons.mp hmem with h | h
    · exact Or.inl h
    · rcases ih d pid hrest h with h2 | h2
      · exact Or.inr (by rw [h2]; exact Relation.TransGen.single hdc)
      · exact Or.inr (Relation.TransGen.tail h2 hdc)

theorem cycle_from_back_edge {acts : List Activity} {c pid : String} {srest : List String}
    (hchain : StackChain acts (c :: srest)) (hmem : pid ∈ c :: srest)
    (hedge : Edge acts c pid) : ∃ u, Relation.TransGen (Edge acts) u u := by
  rcases stack_reach srest c pid hchain hmem with h | h
  · exact ⟨c, Relation.TransGen.single (h ▸ hedge)⟩
  · exact ⟨pid, Relation.TransGen.tail h hedge⟩

theorem dfsScan_true_cycle (acts : List Activity) :
    ∀ fuel pids (visited : List String) (c : String) (srest v : List String),
      dfsScan acts fuel pids visited (c :: srest) = (true, v) →
      StackChain acts (c :: srest) →
      (∀ p ∈ pids, Edge acts c p) →
      ∃ u, Relation.TransGen (Edge acts) u u := by
  intro fuel
  induction fuel using Nat.strong_induction_on with
  | _ fuel IH =>
    intro pids visited c srest v hrun hchain hpids
    cases fuel with
    | zero =>
      rw [dfsScan] at hrun
      exact Bool.noConfusion (congrArg Prod.fst hrun)
    | succ f =>
      cases pids with
      | nil =>
        rw [dfsScan] at hrun
        exact Bool.noConfusion (congrArg Prod.fst hrun)
      | cons pid rest =>
        rw [dfsScan] at hrun
        by_cases hv : pid ∈ visited
        · rw [if_pos hv] at hrun
          by_cases hs : pid ∈ c :: srest
          · exact cycle_from_back_edge hchain hs (hpids pid (List.mem_cons_self _ _))
          · rw [if_neg hs] at hrun
            exact IH f (Nat.lt_succ_self f) rest visited c srest v hrun hchain
              (fun p hp => hpids p (List.mem_cons_of_mem _ hp))
        · rw [if_neg hv] at hrun
          rcases hvis : dfsVisit acts f pid visited (c :: srest) with ⟨b, v2⟩
          rw [hvis] at hrun
          cases b with
          | true =>
            cases f with
            | zero =>
              rw [dfsVisit] at hvis
              exact Bool.noConfusion (congrArg Prod.fst hvis)
            | succ g =>
              rw [dfsVisit] at hvis
              have hchain2 : StackChain acts (pid :: c :: srest) :=
                List.chain'_cons.mpr ⟨hpids pid (List.mem_cons_self _ _), hchain⟩
              exact IH g (Nat.lt_of_lt_of_le (Nat.lt_succ_self g)
                  (Nat.le_succ _)) (predIds acts pid) (pid :: visited) pid (c :: srest) v2
                hvis hchain2 (fun p hp => hp)
          | false =>
            exact IH f (Nat.lt_succ_self f) rest v2 c srest v hrun hchain
              (fun p hp => hpids p (List.mem_cons_of_mem _ hp))

theorem dfsVisit_true_cycle {acts : List Activity} {fuel : Nat} {u : String}
    {visited stack v : List String}
    (hrun : dfsVisit acts fuel u visited stack = (true, v))
    (hchain : StackChain acts (u :: stack)) :
    ∃ w, Relation.TransGen (Edge acts) w w := by
  cases fuel with
  | zero =>
    rw [dfsVisit] at hrun
    exact Bool.noConfusion (congrArg Prod.fst hrun)
  | succ f =>
    rw [dfsVisit] at hrun
    exact dfsScan_true_cycle acts f (predIds acts u) (u :: visited) u stack v hrun hchain
      (fun p hp => hp)

theorem detectLoop_true_cycle (acts : List Activity) :
    ∀ (rest : List Activity) (visited : List String),
      detectLoop acts rest visited = true →
      ∃ w, Relation.TransGen (Edge acts) w w := by
  intro rest
  induction rest with
  | nil =>
    intro visited h
    rw [detectLoop] at h
    exact Bool.noConfusion h
  | cons a rest2 ih =>
    intro visited h
    rw [detectLoop] at h
    by_cases hv : a.activity_id ∈ visited
    · rw [if_pos hv] at h
      exact ih visited h
    · rw [if_neg hv] at h
      rcases hvis : dfsVisit acts (dfsFuel acts) a.activity_id visited [] with ⟨b, v2⟩
      rw [hvis] at h
      cases b with
      | true => exact dfsVisit_true_cycle hvis (List.chain'_singleton _)
      | false => exact ih v2 h

theorem hasCycle_of_detect {acts : List Activity} (h : detect_cycles acts = true) :
    HasCycle acts := by
  rw [detect_cycles] at h
  rcases detectLoop_true_cycle acts acts [] h with ⟨w, hw⟩
  exact hasCycle_of_transGen hw

/-! ## `detect_cycles` returns False only on an acyclic graph -/

theorem filter_imp_length_le {α : Type} (p q : α → Bool) :
    ∀ l : List α, (∀ x ∈ l, p x = true → q x = true) →
      (l.filter p).length ≤ (l.filter q).length := by
  intro l
  induction l with
  | nil => intro _; exact Nat.le_refl 0
  | cons x t ih =>
    intro h
    have iht := ih (fun y hy => h y (List.mem_cons_of_mem _ hy))
    cases hp : p x with
    | true =>
      have hq := h x (List.mem_cons_self _ _) hp
      rw [List.filter_cons_of_pos hp, List.filter_cons_of_pos hq]
      exact Nat.succ_le_succ iht
    | false =>
      rw [List.filter_cons_of_neg (by simp [hp])]
      cases hq : q x with
      | true =>
        rw [List.filter_cons_of_pos hq]
        exact Nat.le_succ_of_le iht
      | false =>
        rw [List.filter_cons_of_neg (by simp [hq])]
        exact iht

theorem unvisited_mono {acts : List Activity} {v1 v2 : List String}
    (h : ∀ x ∈ v1, x ∈ v2) :
    unvisitedCount acts v2 ≤ unvisitedCount acts v1 := by
  unfold unvisitedCount
  refine filter_imp_length_le _ _ _ (fun x _ hx => ?_)
  simp only [decide_eq_true_eq] at hx ⊢
  exact fun hmem => hx (h x hmem)

theorem filter_cons_length_lt {u : String} {visited : List String} :
    ∀ l : List String, u ∈ l → u ∉ visited →
      (l.filter (fun x => x ∉ (u :: visited))).length <
        (l.filter (fun x => x ∉ visited)).length := by
  intro l
  induction l with
  | nil => intro h; cases h
  | cons y t ih =>
    intro hul hv
    by_cases hy : y = u
    · subst hy
      rw [List.filter_cons_of_neg (by simp), List.filter_cons_of_pos (by simpa using hv)]
      refine Nat.lt_succ_of_le (filter_imp_length_le _ _ _ (fun x _ hx => ?_))
      simp only [decide_eq_true_eq, List.mem_cons] at hx ⊢
      exact fun hmem => hx (Or.inr hmem)
    · have hut : u ∈ t := by
        rcases List.mem_cons.mp hul with h | h
        · exact absurd h.symm hy
        · exact h
      by_cases hyv : y ∈ visited
      · rw [List.filter_cons_of_neg (by simp [hyv]), List.filter_cons_of_neg (by simp [hyv])]
        exact ih hut hv
      · have h1 : y ∉ (u :: visited) := by
          simp only [List.mem_cons]
          rintro (h | h)
          · exact hy h
          · exact hyv h
        rw [List.filter_cons_of_pos (by simpa using h1),
          List.filter_cons_of_pos (by simpa using hyv)]
        exact Nat.succ_lt_succ (ih hut hv)

theorem unvisited_dec {acts : List Activity} {visited : List String} {u : String}
    (hu : u ∈ mentionedIds acts) (hv : u ∉ visited) :
    unvisitedCount acts (u :: visited) < unvisitedCount acts visited :=
  filter_cons_length_lt _ (List.mem_dedup.mpr hu) hv

theorem unvisited_le_mentioned (acts : List Activity) (visited : List String) :
    unvisitedCount acts visited ≤ (mentionedIds acts).length :=
  Nat.le_trans (List.length_filter_le _ _) (List.Sublist.length_le (List.dedup_sublist _))

theorem actIds_sub_mentioned {acts : List Activity} {i : String} (h : i ∈ actIds acts) :
    i ∈ mentionedIds acts :=
  List.mem_append.mpr (Or.inl h)

theorem predIds_sub_mentioned {acts : List Activity} {u p : String}
    (h : p ∈ predIds acts u) : p ∈ mentionedIds acts := by
  unfold predIds at h
  rcases hg : getAct acts u with _ | a
  · rw [hg] at h; cases h
  · rw [hg] at h
    refine List.mem_append.mpr (Or.inr ?_)
    have ha := (getAct_eq_some hg).1
    clear hg
    induction acts with
    | nil => cases ha
    | cons b rest ih =>
      rw [List.foldr_cons, List.mem_append]
      rcases List.mem_cons.mp ha with hb | hb
      · exact Or.inl (hb ▸ h)
      · exact Or.inr (ih hb)

theorem length_predIds_le (acts : List Activity) (u : String) :
    (predIds acts u).length ≤ totalPreds acts := by
  unfold predIds
  rcases hg : getAct acts u with _ | a
  · exact Nat.zero_le _
  · rw [List.length_map]
    have ha := (getAct_eq_some hg).1
    exact List.single_le_sum (fun x _ => Nat.zero_le x) _
      (List.mem_map.mpr ⟨a, ha, rfl⟩)

theorem closed_reach {acts : List Activity} {P : String → Prop}
    (hP : ∀ v, P v → ∀ p ∈ predIds acts v, P p) {a b : String}
    (h : Relation.ReflTransGen (Edge acts) a b) (ha : P a) : P b := by
  induction h with
  | refl => exact ha
  | tail h1 h2 ih => exact hP _ ih _ h2

theorem no_cycle_step {acts : List Activity} (P : String → Prop) {u : String}
    (hP : ∀ v, P v → ∀ p ∈ predIds acts v, P p)
    (hpreds : ∀ p ∈ predIds acts u, P p) (hu : ¬ P u) :
    ¬ Relation.TransGen (Edge acts) u u := by
  intro h
  rcases Relation.TransGen.head'_iff.mp h with ⟨c, h1, h2⟩
  exact hu (closed_reach hP h2 (hpreds c h1))

theorem dfsInv_push {acts : List Activity} {visited stack : List String} {u : String}
    (hu : u ∉ visited) (hInv : DfsInv acts visited stack) :
    DfsInv acts (u :: visited) (u :: stack) := by
  rcases hInv with ⟨hC, hA⟩
  constructor
  · intro v hv hvs p hp
    have hvne : v ≠ u := fun he => hvs (he ▸ List.mem_cons_self _ _)
    have hv2 : v ∈ visited := by
      rcases List.mem_cons.mp hv with h | h
      · exact absurd h hvne
      · exact h
    have hvs2 : v ∉ stack := fun hc => hvs (List.mem_cons_of_mem _ hc)
    rcases hC v hv2 hvs2 p hp with ⟨h1, h2⟩
    refine ⟨List.mem_cons_of_mem _ h1, ?_⟩
    intro hc
    rcases List.mem_cons.mp hc with h | h
    · exact hu (h ▸ h1)
    · exact h2 h
  · intro v hv hvs
    have hvne : v ≠ u := fun he => hvs (he ▸ List.mem_cons_self _ _)
    have hv2 : v ∈ visited := by
      rcases List.mem_cons.mp hv with h | h
      · exact absurd h hvne
      · exact h
    exact hA v hv2 (fun hc => hvs (List.mem_cons_of_mem _ hc))

theorem dfsInv_pop {acts : List Activity} {v' stack : List String} {u : String}
    (hus : u ∉ stack) (huv : u ∈ v')
    (hInv2 : DfsInv acts v' (u :: stack))
    (hpreds : ∀ p ∈ predIds acts u, p ∈ v' ∧ p ∉ u :: stack) :
    DfsInv acts v' stack := by
  rcases hInv2 with ⟨hC, hA⟩
  have hClosed : ∀ v, v ∈ v' → v ∉ stack → ∀ p ∈ predIds acts v, p ∈ v' ∧ p ∉ stack := by
    intro v hv hvs p hp
    by_cases hvu : v = u
    · subst hvu
      rcases hpreds p hp with ⟨h1, h2⟩
      exact ⟨h1, fun hc => h2 (List.mem_cons_of_mem _ hc)⟩
    · have : v ∉ u :: stack := by
        intro hc
        rcases List.mem_cons.mp hc with h | h
        · exact hvu h
        · exact hvs h
      rcases hC v hv this p hp with ⟨h1, h2⟩
      exact ⟨h1, fun hc => h2 (List.mem_cons_of_mem _ hc)⟩
  refine ⟨hClosed, ?_⟩
  intro v hv hvs
  by_cases hvu : v = u
  · subst hvu
    refine no_cycle_step (fun x => x ∈ v' ∧ x ∉ v :: stack) ?_ hpreds ?_
    · intro w hw p hp
      exact hC w hw.1 hw.2 p hp
    · intro hc
      exact hc.2 (List.mem_cons_self _ _)
  · have : v ∉ u :: stack := by
      intro hc
      rcases List.mem_cons.mp hc with h | h
      · exact hvu h
      · exact hvs h
    exact hA v hv this

theorem dfs_false_spec (acts : List Activity) : ∀ fuel : Nat,
    (∀ pids visited stack v',
      dfsScan acts fuel pids visited stack = (false, v') →
      unvisitedCount acts visited * (totalPreds acts + 1) + pids.length < fuel →
      (∀ p ∈ pids, p ∈ mentionedIds acts) →
      (∀ s ∈ stack, s ∈ visited) →
      DfsInv acts visited stack →
      (∀ x ∈ visited, x ∈ v') ∧ DfsInv acts v' stack ∧
        (∀ p ∈ pids, p ∈ v' ∧ p ∉ stack)) ∧
    (∀ u visited stack v',
      dfsVisit acts fuel u visited stack = (false, v') →
      unvisitedCount acts visited * (totalPreds acts + 1) < fuel →
      u ∈ mentionedIds acts → u ∉ visited →
      (∀ s ∈ stack, s ∈ visited) →
      DfsInv acts visited stack →
      (∀ x ∈ u :: visited, x ∈ v') ∧ DfsInv acts v' stack ∧ u ∉ stack) := by
  intro fuel
  induction fuel using Nat.strong_induction_on with
  | _ fuel IH =>
    constructor
    · -- the Scan part
      intro pids visited stack v' hrun hfuel hment hstack hInv
      cases fuel with
      | zero => exact absurd hfuel (Nat.not_lt_zero _)
      | succ f =>
        cases pids with
        | nil =>
          rw [dfsScan] at hrun
          cases hrun
          exact ⟨fun x hx => hx, hInv, fun p hp => absurd hp (List.not_mem_nil _)⟩
        | cons pid rest =>
          rw [dfsScan] at hrun
          have hT : (totalPreds acts + 1) ≥ 1 := Nat.succ_le_succ (Nat.zero_le _)
          by_cases hv : pid ∈ visited
          · rw [if_pos hv] at hrun
            by_cases hs : pid ∈ stack
            · rw [if_pos hs] at hrun
              exact Bool.noConfusion (congrArg Prod.fst hrun)
            · rw [if_neg hs] at hrun
              have hfuel2 : unvisitedCount acts visited * (totalPreds acts + 1) +
                  rest.length < f := by
                have := hfuel
                simp only [List.length_cons] at this
                omega
              rcases (IH f (Nat.lt_succ_self f)).1 rest visited stack v' hrun hfuel2
                (fun p hp => hment p (List.mem_cons_of_mem _ hp)) hstack hInv with
                ⟨hgrow, hInv2, hrest⟩
              refine ⟨hgrow, hInv2, fun p hp => ?_⟩
              rcases List.mem_cons.mp hp with h | h
              · rw [h]
                exact ⟨hgrow pid hv, hs⟩
              · exact hrest p h
          · rw [if_neg hv] at hrun
            rcases hvis : dfsVisit acts f pid visited stack with ⟨b, v2⟩
            rw [hvis] at hrun
            cases b with
            | true => exact Bool.noConfusion (congrArg Prod.fst hrun)
            | false =>
              have hfuelv : unvisitedCount acts visited * (totalPreds acts + 1) < f := by
                simp only [List.length_cons] at hfuel
                omega
              rcases (IH f (Nat.lt_succ_self f)).2 pid visited stack v2 hvis hfuelv
                (hment pid (List.mem_cons_self _ _)) hv hstack hInv with
                ⟨hgrow1, hInv1, hpidstack⟩
              have hv2sup : ∀ x ∈ visited, x ∈ v2 :=
                fun x hx => hgrow1 x (List.mem_cons_of_mem _ hx)
              have hUle : unvisitedCount acts v2 + 1 ≤ unvisitedCount acts visited := by
                have h1 : unvisitedCount acts v2 ≤
                    unvisitedCount acts (pid :: visited) :=
                  unvisited_mono (fun x hx => hgrow1 x hx)
                have h2 : unvisitedCount acts (pid :: visited) <
                    unvisitedCount acts visited :=
                  unvisited_dec (hment pid (List.mem_cons_self _ _)) hv
                omega
              have hfuel3 : unvisitedCount acts v2 * (totalPreds acts + 1) +
                  rest.length < f := by
                have hmul : unvisitedCount acts v2 * (totalPreds acts + 1) +
                    (totalPreds acts + 1) ≤
                    unvisitedCount acts visited * (totalPreds acts + 1) := by
                  have := Nat.mul_le_mul_right (totalPreds acts + 1) hUle
                  rw [Nat.add_mul, Nat.one_mul] at this
                  exact this
                simp only [List.length_cons] at hfuel
                omega
              rcases (IH f (Nat.lt_succ_self f)).1 rest v2 stack v' hrun hfuel3
                (fun p hp => hment p (List.mem_cons_of_mem _ hp))
                (fun s hs => hv2sup s (hstack s hs)) hInv1 with
                ⟨hgrow2, hInv2, hrest⟩
              refine ⟨fun x hx => hgrow2 x (hv2sup x hx), hInv2, fun p hp => ?_⟩
              rcases List.mem_cons.mp hp with h | h
              · rw [h]
                exact ⟨hgrow2 pid (hgrow1 pid (List.mem_cons_self _ _)), hpidstack⟩
              · exact hrest p h
    · -- the Visit part
      intro u visited stack v' hrun hfuel hment huv hstack hInv
      cases fuel with
      | zero => exact absurd hfuel (Nat.not_lt_zero _)
      | succ f =>
        rw [dfsVisit] at hrun
        have hUdec : unvisitedCount acts (u :: visited) + 1 ≤
            unvisitedCount acts visited :=
          unvisited_dec hment huv
        have hfuel2 : unvisitedCount acts (u :: visited) * (totalPreds acts + 1) +
            (predIds acts u).length < f := by
          have hmul : unvisitedCount acts (u :: visited) * (totalPreds acts + 1) +
              (totalPreds acts + 1) ≤
              unvisitedCount acts visited * (totalPreds acts + 1) := by
            have := Nat.mul_le_mul_right (totalPreds acts + 1) hUdec
            rw [Nat.add_mul, Nat.one_mul] at this
            exact this
          have hlp := length_predIds_le acts u
          omega
        have hstack2 : ∀ s ∈ u :: stack, s ∈ u :: visited := by
          intro s hs
          rcases List.mem_cons.mp hs with h | h
          · exact h ▸ List.mem_cons_self _ _
          · exact List.mem_cons_of_mem _ (hstack s h)
        rcases (IH f (Nat.lt_succ_self f)).1 (predIds acts u) (u :: visited) (u :: stack)
          v' hrun hfuel2 (fun p hp => predIds_sub_mentioned hp) hstack2
          (dfsInv_push huv hInv) with ⟨hgrow, hInv2, hpreds⟩
        have hus : u ∉ stack := fun hc => huv (hstack u hc)
        refine ⟨hgrow, ?_, hus⟩
        exact dfsInv_pop hus (hgrow u (List.mem_cons_self _ _)) hInv2 hpreds

theorem detectLoop_false_acyc (acts : List Activity) :
    ∀ (rest : List Activity) (visited : List String),
      detectLoop acts rest visited = false →
      DfsInv acts visited [] →
      (∀ x ∈ rest, x ∈ acts) →
      ∀ a ∈ rest, ¬ Relation.TransGen (Edge acts) a.activity_id a.activity_id := by
  intro rest
  induction rest with
  | nil => intro visited _ _ _ a ha; cases ha
  | cons b rest2 ih =>
    intro visited hrun hInv hsub a ha
    rw [detectLoop] at hrun
    by_cases hv : b.activity_id ∈ visited
    · rw [if_pos hv] at hrun
      rcases List.mem_cons.mp ha with h | h
      · exact h ▸ hInv.2 b.activity_id hv (List.not_mem_nil _)
      · exact ih visited hrun hInv (fun x hx => hsub x (List.mem_cons_of_mem _ hx)) a h
    · rw [if_neg hv] at hrun
      rcases hvis : dfsVisit acts (dfsFuel acts) b.activity_id visited [] with ⟨bb, v2⟩
      rw [hvis] at hrun
      cases bb with
      | true => exact Bool.noConfusion hrun
      | false =>
        have hfuel : unvisitedCount acts visited * (totalPreds acts + 1) <
            dfsFuel acts := by
          unfold dfsFuel
          have h1 := unvisited_le_mentioned acts visited
          have h2 : (totalPreds acts + 1) ≥ 1 := Nat.succ_le_succ (Nat.zero_le _)
          calc unvisitedCount acts visited * (totalPreds acts + 1)
              ≤ (mentionedIds acts).length * (totalPreds acts + 1) :=
                Nat.mul_le_mul_right _ h1
            _ < ((mentionedIds acts).length + 1) * (totalPreds acts + 1) := by
                rw [Nat.add_mul, Nat.one_mul]
                omega
        rcases (dfs_false_spec acts (dfsFuel acts)).2 b.activity_id visited [] v2 hvis
          hfuel (actIds_sub_mentioned
            (mem_actIds.mpr ⟨b, hsub b (List.mem_cons_self _ _), rfl⟩))
          hv (fun s hs => absurd hs (List.not_mem_nil _)) hInv with
          ⟨hgrow, hInv2, _⟩
        rcases List.mem_cons.mp ha with h | h
        · exact h ▸ hInv2.2 b.activity_id (hgrow _ (List.mem_cons_self _ _))
            (List.not_mem_nil _)
        · exact ih v2 hrun hInv2 (fun x hx => hsub x (List.mem_cons_of_mem _ hx)) a h

theorem no_cycle_of_detect_false {acts : List Activity}
    (h : detect_cycles acts = false) : ¬ HasCycle acts := by
  rintro ⟨u, hc⟩
  have hedge : Relation.TransGen (Edge acts) u u :=
    Relation.TransGen.mono (fun x y hxy => hxy.1) hc
  have hu : u ∈ actIds acts := by
    rcases Relation.TransGen.head'_iff.mp hc with ⟨c, h1, _⟩
    exact edge_src_mem h1.1
  rcases mem_actIds.mp hu with ⟨a, ha, haid⟩
  rw [detect_cycles] at h
  have := detectLoop_false_acyc acts acts [] h
    ⟨fun v hv => absurd hv (List.not_mem_nil _), fun v hv => absurd hv (List.not_mem_nil _)⟩
    (fun x hx => hx) a ha
  rw [haid] at this
  exact this hedge

/-! ## Helper lemmas for the topological-sort proofs -/

theorem exPreds_sub_ids {st : List Activity} {v p : String} (h : p ∈ exPreds st v) :
    p ∈ actIds st := by
  unfold exPreds at h
  exact getAct_isSome.mp ((List.mem_filter.mp h).2)

theorem exPreds_sub_predIds {st : List Activity} {v p : String} (h : p ∈ exPreds st v) :
    p ∈ predIds st v :=
  List.mem_of_mem_filter h

theorem exPreds_nil {st : List Activity} {v : String} (h : v ∉ actIds st) :
    exPreds st v = [] := by
  unfold exPreds predIds
  rw [getAct_eq_none.mpr h]
  rfl

theorem exPreds_build (acts : List Activity) (v : String) :
    exPreds (buildSuccessors acts) v = exPreds acts v := by
  unfold exPreds
  rw [predIds_build]
  refine List.filter_congr (fun p _ => ?_)
  have h1 : (getAct (buildSuccessors acts) p).isSome = true ↔
      (getAct acts p).isSome = true := by
    rw [getAct_isSome, getAct_isSome, actIds_build]
  cases hb : (getAct acts p).isSome with
  | true => rw [h1.mpr hb]
  | false =>
    have h2 : ¬ (getAct (buildSuccessors acts) p).isSome = true := by
      intro hc
      rw [h1, hb] at hc
      cases hc
    rw [Bool.not_eq_true] at h2
    rw [h2]

theorem dictKeysAux_nodup : ∀ (l seen : List String), l.Nodup →
    (∀ x ∈ l, x ∉ seen) → dictKeysAux l seen = l := by
  intro l
  induction l with
  | nil => intro seen _ _; rfl
  | cons x t ih =>
    intro seen hN hdis
    rw [dictKeysAux, if_neg (hdis x (List.mem_cons_self _ _))]
    congr 1
    refine ih (x :: seen) (List.nodup_cons.mp hN).2 (fun y hy => ?_)
    intro hc
    rcases List.mem_cons.mp hc with h | h
    · exact (List.nodup_cons.mp hN).1 (h ▸ hy)
    · exact hdis y (List.mem_cons_of_mem _ hy) h

theorem dictKeys_eq_self {l : List String} (h : l.Nodup) : dictKeys l = l :=
  dictKeysAux_nodup l [] h (fun x _ => List.not_mem_nil x)

theorem filter_single_of_nodup {st : List Activity} (hN : (actIds st).Nodup)
    {v : String} {a : Activity} (h : getAct st v = some a) :
    st.filter (fun b => b.activity_id = v) = [a] := by
  induction st with
  | nil => cases h
  | cons b rest ih =>
    rw [actIds, List.map_cons, List.nodup_cons] at hN
    rw [getAct] at h
    by_cases hb : b.activity_id = v
    · rw [if_pos hb] at h
      cases h
      rw [List.filter_cons_of_pos (by simpa using hb)]
      have : rest.filter (fun b2 => b2.activity_id = v) = [] := by
        rw [List.filter_eq_nil_iff]
        intro c hc hcv
        exact hN.1 (hb ▸ ((of_decide_eq_true hcv) ▸ mem_actIds.mpr ⟨c, hc, rfl⟩))
      rw [this]
    · rw [if_neg hb] at h
      rw [List.filter_cons_of_neg (by simpa using hb)]
      exact ih hN.2 h

theorem filter_nil_of_absent {st : List Activity} {v : String} (h : v ∉ actIds st) :
    st.filter (fun b => b.activity_id = v) = [] := by
  rw [List.filter_eq_nil_iff]
  intro c hc hcv
  exact h ((of_decide_eq_true hcv) ▸ mem_actIds.mpr ⟨c, hc, rfl⟩)

theorem length_filter_map {α β : Type} (f : α → β) (p : β → Bool) (l : List α) :
    ((l.map f).filter p).length = (l.filter (fun x => p (f x))).length := by
  induction l with
  | nil => rfl
  | cons x t ih =>
    rw [List.map_cons]
    cases hp : p (f x) with
    | true =>
      have h2 : List.filter (fun y => p (f y)) (x :: t) =
          x :: List.filter (fun y => p (f y)) t := List.filter_cons_of_pos hp
      rw [h2, List.filter_cons_of_pos hp, List.length_cons, List.length_cons, ih]
    | false =>
      have h2 : List.filter (fun y => p (f y)) (x :: t) =
          List.filter (fun y => p (f y)) t := List.filter_cons_of_neg (by simp [hp])
      rw [h2, List.filter_cons_of_neg (by simp [hp])]
      exact ih

theorem inDeg_eq_exPreds {st : List Activity} (hN : (actIds st).Nodup) (v : String) :
    inDeg st v = ((exPreds st v).length : Int) := by
  unfold inDeg exPreds predIds validPredCount
  rcases h : getAct st v with _ | a
  · rw [filter_nil_of_absent (getAct_eq_none.mp h)]
    rfl
  · rw [filter_single_of_nodup hN h, length_filter_map]
    simp

theorem decAll_deg_queue (s : String) (rest : List String) (deg : String → Int)
    (queue : List String) :
    decAll (s :: rest) deg queue =
      (if deg s - 1 = 0 then
        decAll rest (fun v => if v = s then deg v - 1 else deg v) (queue ++ [s])
      else decAll rest (fun v => if v = s then deg v - 1 else deg v) queue) := by
  rw [decAll]
  by_cases h : deg s - 1 = 0
  · rw [if_pos h, if_pos (show (if s = s then deg s - 1 else deg s) = 0 by
      rw [if_pos rfl]; exact h)]
  · rw [if_neg h, if_neg (show ¬ (if s = s then deg s - 1 else deg s) = 0 by
      rw [if_pos rfl]; exact h)]

theorem decAll_spec : ∀ (succs : List String) (deg : String → Int) (queue : List String),
    succs.Nodup →
    (decAll succs deg queue).1 = (fun v => if v ∈ succs then deg v - 1 else deg v) ∧
    (decAll succs deg queue).2 = queue ++ succs.filter (fun s => deg s = 1) := by
  intro succs
  induction succs with
  | nil =>
    intro deg queue _
    constructor
    · funext v
      rw [decAll, if_neg (List.not_mem_nil v)]
    · rw [decAll, List.filter_nil, List.append_nil]
  | cons s rest ih =>
    intro deg queue hN
    rcases List.nodup_cons.mp hN with ⟨hs, hrest⟩
    have hdegfun : (fun v => if v ∈ rest then
        (if v = s then deg v - 1 else deg v) - 1 else (if v = s then deg v - 1 else deg v)) =
        (fun v => if v ∈ s :: rest then deg v - 1 else deg v) := by
      funext v
      by_cases hv : v = s
      · subst hv
        rw [if_neg hs, if_pos rfl, if_pos (List.mem_cons_self _ _)]
      · by_cases hvr : v ∈ rest
        · rw [if_pos hvr, if_neg hv, if_pos (List.mem_cons_of_mem _ hvr)]
        · rw [if_neg hvr, if_neg hv,
            if_neg (fun hc => (List.mem_cons.mp hc).elim hv hvr)]
    have hfiltcongr : rest.filter (fun x => (if x = s then deg x - 1 else deg x) = 1) =
        rest.filter (fun x => deg x = 1) := by
      refine List.filter_congr (fun x hx => ?_)
      rw [if_neg (fun hc : x = s => hs (hc ▸ hx))]
    rw [decAll_deg_queue]
    by_cases h1 : deg s - 1 = 0
    · rw [if_pos h1]
      rcases ih (fun v => if v = s then deg v - 1 else deg v) (queue ++ [s]) hrest with
        ⟨hdeg, hq⟩
      have hds : deg s = 1 := by omega
      constructor
      · rw [hdeg, hdegfun]
      · rw [hq, hfiltcongr, List.filter_cons_of_pos (by simpa using hds),
          List.append_assoc]
        rfl
    · rw [if_neg h1]
      rcases ih (fun v => if v = s then deg v - 1 else deg v) queue hrest with ⟨hdeg, hq⟩
      have hds : ¬ deg s = 1 := by omega
      constructor
      · rw [hdeg, hdegfun]
      · rw [hq, hfiltcongr, List.filter_cons_of_neg (by simpa using hds)]

theorem nodup_same_mem_length {l1 l2 : List String} (h1 : l1.Nodup) (h2 : l2.Nodup)
    (h : ∀ x, x ∈ l1 ↔ x ∈ l2) : l1.length = l2.length := by
  rw [← List.toFinset_card_of_nodup h1, ← List.toFinset_card_of_nodup h2]
  congr 1
  ext x
  simp only [List.mem_toFinset]
  exact h x

theorem sum_toNat_sub {deg : String → Int} {succs : List String} :
    ∀ ids : List String, (∀ v ∈ ids, v ∈ succs → 1 ≤ deg v) →
      ((ids.map (fun v => ((if v ∈ succs then deg v - 1 else deg v)).toNat)).sum
        + (ids.filter (fun v => v ∈ succs)).length
        = (ids.map (fun v => (deg v).toNat)).sum) := by
  intro ids
  induction ids with
  | nil => intro _; rfl
  | cons v t ih =>
    intro h
    have iht := ih (fun w hw => h w (List.mem_cons_of_mem _ hw))
    by_cases hv : v ∈ succs
    · rw [List.map_cons, List.map_cons, List.filter_cons_of_pos (by simpa using hv),
        if_pos hv, List.sum_cons, List.sum_cons, List.length_cons]
      have hpos := h v (List.mem_cons_self _ _) hv
      omega
    · rw [List.map_cons, List.map_cons, List.filter_cons_of_neg (by simpa using hv),
        if_neg hv, List.sum_cons, List.sum_cons]
      omega

theorem degSum_dec {st : List Activity} {deg : String → Int} {succs : List String}
    (hN : (actIds st).Nodup) (hsN : succs.Nodup)
    (hsub : ∀ s ∈ succs, s ∈ actIds st) (hpos : ∀ s ∈ succs, 1 ≤ deg s) :
    degSum st (fun v => if v ∈ succs then deg v - 1 else deg v) + succs.length
      = degSum st deg := by
  unfold degSum
  have h1 := @sum_toNat_sub deg succs (actIds st)
    (fun v _ hv => hpos v hv)
  have h2 : ((actIds st).filter (fun v => v ∈ succs)).length = succs.length := by
    refine nodup_same_mem_length (List.Nodup.filter _ hN) hsN (fun x => ?_)
    simp only [List.mem_filter, decide_eq_true_eq]
    exact ⟨fun hx => hx.2, fun hx => ⟨hsub x hx, hx⟩⟩
  rw [← h2]
  exact h1

theorem fallback_spec (acts : List Activity) :
    ∀ ord : List String, ord.Nodup →
      (acts.foldl (fun ord a =>
        if a.activity_id ∈ ord then ord else ord ++ [a.activity_id]) ord).Nodup ∧
      (∀ v, v ∈ acts.foldl (fun ord a =>
          if a.activity_id ∈ ord then ord else ord ++ [a.activity_id]) ord ↔
        v ∈ ord ∨ v ∈ actIds acts) := by
  induction acts with
  | nil =>
    intro ord hN
    refine ⟨hN, fun v => ?_⟩
    simp [actIds]
  | cons a rest ih =>
    intro ord hN
    rw [List.foldl_cons]
    by_cases ha : a.activity_id ∈ ord
    · rw [if_pos ha]
      rcases ih ord hN with ⟨ihN, ihm⟩
      refine ⟨ihN, fun v => ?_⟩
      rw [ihm v]
      unfold actIds
      simp only [List.map_cons, List.mem_cons]
      constructor
      · intro h
        tauto
      · intro h
        rcases h with h | h | h
        · tauto
        · exact Or.inl (h ▸ ha)
        · tauto
    · rw [if_neg ha]
      have hN2 : (ord ++ [a.activity_id]).Nodup := by
        refine List.Nodup.append hN (List.nodup_singleton _) ?_
        intro x hx hx2
        rw [List.mem_singleton] at hx2
        exact ha (hx2 ▸ hx)
      rcases ih (ord ++ [a.activity_id]) hN2 with ⟨ihN, ihm⟩
      refine ⟨ihN, fun v => ?_⟩
      rw [ihm v]
      unfold actIds
      simp only [List.mem_append, List.mem_singleton, List.map_cons, List.mem_cons]
      tauto

theorem fallback_noop (acts : List Activity) :
    ∀ ord : List String, (∀ a ∈ acts, a.activity_id ∈ ord) →
      acts.foldl (fun ord a =>
        if a.activity_id ∈ ord then ord else ord ++ [a.activity_id]) ord = ord := by
  induction acts with
  | nil => intro ord _; rfl
  | cons a rest ih =>
    intro ord h
    rw [List.foldl_cons, if_pos (h a (List.mem_cons_self _ _))]
    exact ih ord (fun b hb => h b (List.mem_cons_of_mem _ hb))

theorem exists_dup_split {l : List String} (h : ¬ l.Nodup) :
    ∃ a l1 l2 l3, l = l1 ++ a :: (l2 ++ a :: l3) := by
  induction l with
  | nil => exact absurd List.nodup_nil h
  | cons x t ih =>
    by_cases hx : x ∈ t
    · rcases List.append_of_mem hx with ⟨s1, s2, ht⟩
      exact ⟨x, [], s1, s2, by rw [ht]; rfl⟩
    · have h2 : ¬ t.Nodup := fun hn => h (List.nodup_cons.mpr ⟨hx, hn⟩)
      rcases ih h2 with ⟨a, l1, l2, l3, ht⟩
      exact ⟨a, x :: l1, l2, l3, by rw [ht, List.cons_append]⟩

theorem nodup_sub_length {l U : List String} (hN : l.Nodup) (hsub : ∀ x ∈ l, x ∈ U) :
    l.length ≤ U.length := by
  rw [← List.toFinset_card_of_nodup hN]
  refine Nat.le_trans (Finset.card_le_card ?_) U.toFinset_card_le
  intro x hx
  rw [List.mem_toFinset] at hx
  exact List.mem_toFinset.mpr (hsub x hx)

theorem exists_chain_in {U : List String} {r : String → String → Prop}
    (hstep : ∀ v ∈ U, ∃ p, p ∈ U ∧ r v p) :
    ∀ (n : Nat) (v : String), v ∈ U →
      ∃ l, l.length = n ∧ (∀ x ∈ l, x ∈ U) ∧ List.Chain r v l := by
  intro n
  induction n with
  | zero =>
    intro v _
    exact ⟨[], rfl, fun x hx => absurd hx (List.not_mem_nil x), List.Chain.nil⟩
  | succ m ih =>
    intro v hv
    rcases hstep v hv with ⟨p, hp, hr⟩
    rcases ih p hp with ⟨l, hlen, hsub, hchain⟩
    exact ⟨p :: l, by rw [List.length_cons, hlen],
      fun x hx => (List.mem_cons.mp hx).elim (fun h => h ▸ hp) (hsub x),
      List.Chain.cons hr hchain⟩

theorem cycle_of_pred_closed {U : List String} {r : String → String → Prop}
    (hne : U ≠ []) (hstep : ∀ v ∈ U, ∃ p, p ∈ U ∧ r v p) :
    ∃ u, Relation.TransGen r u u := by
  rcases List.exists_mem_of_ne_nil U hne with ⟨v, hv⟩
  rcases exists_chain_in hstep (U.length + 1) v hv with ⟨l, hlen, hsub, hchain⟩
  have hnotnodup : ¬ l.Nodup := by
    intro hN
    have := nodup_sub_length hN hsub
    omega
  rcases exists_dup_split hnotnodup with ⟨a, l1, l2, l3, hl⟩
  rw [hl] at hchain
  have h1 := (@List.chain_split String r v a l1 (l2 ++ a :: l3)).mp hchain
  have h2 := (@List.chain_split String r a a l2 l3).mp h1.2
  exact ⟨a, chain_transGen l2 a a h2.1⟩

/-! ## Kahn's loop: the order never repeats an id -/

theorem kahnLoop_nodup (st : List Activity)
    (hsucc : ∀ i a, getAct st i = some a →
      a.successors.Nodup ∧ ∀ v ∈ a.successors, v ∈ actIds st) :
    ∀ (fuel : Nat) (queue : List String) (deg : String → Int) (order : List String),
      (order ++ queue).Nodup →
      (∀ v ∈ order ++ queue, v ∈ actIds st) →
      (∀ v ∈ order ++ queue, deg v ≤ 0) →
      (kahnLoop st fuel queue deg order).Nodup ∧
      (∀ v ∈ kahnLoop st fuel queue deg order, v ∈ actIds st) := by
  intro fuel
  induction fuel with
  | zero =>
    intro queue deg order h1 h1b _
    rw [kahnLoop]
    exact ⟨(List.nodup_append.mp h1).1, fun v hv => h1b v (List.mem_append.mpr (Or.inl hv))⟩
  | succ fuel ih =>
    intro queue deg order h1 h1b h6
    cases queue with
    | nil =>
      rw [kahnLoop]
      rw [List.append_nil] at h1 h1b
      exact ⟨h1, h1b⟩
    | cons current qrest =>
      have hcur : current ∈ actIds st :=
        h1b current (List.mem_append.mpr (Or.inr (List.mem_cons_self _ _)))
      rcases hget : getAct st current with _ | act
      · exfalso
        have := getAct_isSome.mpr hcur
        rw [hget] at this
        cases this
      · rw [kahnLoop, hget]
        dsimp only
        rcases hsucc current act hget with ⟨hsN, hssub⟩
        rcases decAll_spec act.successors deg qrest hsN with ⟨hdeg2, hq2⟩
        have hre : (order ++ [current]) ++ (qrest ++
            act.successors.filter (fun s => deg s = 1)) =
            (order ++ current :: qrest) ++ act.successors.filter (fun s => deg s = 1) := by
          simp [List.append_assoc]
        have henq : ∀ e ∈ act.successors.filter (fun s => deg s = 1),
            e ∈ act.successors ∧ deg e = 1 := by
          intro e he
          exact ⟨List.mem_of_mem_filter he, of_decide_eq_true ((List.mem_filter.mp he).2)⟩
        have hnodup2 : ((order ++ [current]) ++ (qrest ++
            act.successors.filter (fun s => deg s = 1))).Nodup := by
          rw [hre]
          rw [List.nodup_append]
          refine ⟨h1, List.Nodup.filter _ hsN, ?_⟩
          intro x hx hx2
          rcases henq x hx2 with ⟨_, hdx⟩
          have := h6 x hx
          omega
        have h1b2 : ∀ v ∈ (order ++ [current]) ++ (qrest ++
            act.successors.filter (fun s => deg s = 1)), v ∈ actIds st := by
          rw [hre]
          intro v hv
          rcases List.mem_append.mp hv with h | h
          · exact h1b v h
          · exact hssub v (henq v h).1
        have h62 : ∀ v ∈ (order ++ [current]) ++ (qrest ++
            act.successors.filter (fun s => deg s = 1)),
            (fun v => if v ∈ act.successors then deg v - 1 else deg v) v ≤ 0 := by
          rw [hre]
          intro v hv
          rcases List.mem_append.mp hv with h | h
          · have := h6 v h
            dsimp only
            by_cases hvs : v ∈ act.successors
            · rw [if_pos hvs]; omega
            · rw [if_neg hvs]; exact this
          · rcases henq v h with ⟨hvs, hdv⟩
            dsimp only
            rw [if_pos hvs, hdv]
            decide
        have := ih (qrest ++ act.successors.filter (fun s => deg s = 1))
          (fun v => if v ∈ act.successors then deg v - 1 else deg v)
          (order ++ [current]) hnodup2 h1b2 h62
        rw [hdeg2, hq2]
        exact this

theorem topo_sort_nodup (acts : List Activity) (hN : (actIds acts).Nodup)
    (hE : ∀ a ∈ acts, a.successors = []) :
    (_topological_sort (buildSuccessors acts)).Nodup ∧
    (∀ v, v ∈ _topological_sort (buildSuccessors acts) ↔ v ∈ actIds acts) := by
  have hNst : (actIds (buildSuccessors acts)).Nodup := by rw [actIds_build]; exact hN
  have hsucc : ∀ i a, getAct (buildSuccessors acts) i = some a →
      a.successors.Nodup ∧ ∀ v ∈ a.successors, v ∈ actIds (buildSuccessors acts) := by
    intro i a ha
    rcases buildSuccessors_succs hE i a ha with ⟨hnd, hmem⟩
    refine ⟨hnd, fun v hv => ?_⟩
    rcases mem_succPairs.mp ((hmem v).mp hv) with ⟨act, hact, hid, _⟩
    rw [actIds_build]
    exact mem_actIds.mpr ⟨act, hact, hid⟩
  unfold _topological_sort
  rw [dictKeys_eq_self hNst]
  have hq0N : ((actIds (buildSuccessors acts)).filter
      (fun v => inDeg (buildSuccessors acts) v = 0)).Nodup := List.Nodup.filter _ hNst
  have hq0sub : ∀ v ∈ (actIds (buildSuccessors acts)).filter
      (fun v => inDeg (buildSuccessors acts) v = 0), v ∈ actIds (buildSuccessors acts) :=
    fun v hv => List.mem_of_mem_filter hv
  have hq0deg : ∀ v ∈ (actIds (buildSuccessors acts)).filter
      (fun v => inDeg (buildSuccessors acts) v = 0), inDeg (buildSuccessors acts) v ≤ 0 := by
    intro v hv
    have := of_decide_eq_true (List.mem_filter.mp hv).2
    omega
  have hmain := kahnLoop_nodup (buildSuccessors acts) hsucc
    ((actIds (buildSuccessors acts)).length + totalPreds (buildSuccessors acts) + 1)
    ((actIds (buildSuccessors acts)).filter (fun v => inDeg (buildSuccessors acts) v = 0))
    (inDeg (buildSuccessors acts)) [] (by simpa using hq0N) (by simpa using hq0sub)
    (by simpa using hq0deg)
  rcases fallback_spec (buildSuccessors acts) _ hmain.1 with ⟨hfN, hfmem⟩
  refine ⟨hfN, fun v => ?_⟩
  rw [hfmem v]
  constructor
  · intro h
    rcases h with h | h
    · have := hmain.2 v h
      rw [actIds_build] at this
      exact this
    · rw [actIds_build] at h
      exact h
  · intro h
    refine Or.inr ?_
    rw [actIds_build]
    exact h

theorem filter_not_append_eq {c : String} {order : List String} :
    ∀ l : List String, c ∉ l →
      l.filter (fun p => p ∉ order ++ [c]) = l.filter (fun p => p ∉ order) := by
  intro l hc
  refine List.filter_congr (fun p hp => ?_)
  refine decide_eq_decide.mpr ?_
  have hpc : p ≠ c := fun he => hc (he ▸ hp)
  simp only [List.mem_append, List.mem_singleton]
  constructor
  · intro h hmem
    exact h (Or.inl hmem)
  · intro h hmem
    rcases hmem with hm | hm
    · exact h hm
    · exact hpc hm

theorem filter_not_append_len {c : String} {order : List String} :
    ∀ l : List String, l.Nodup → c ∈ l → c ∉ order →
      (l.filter (fun p => p ∉ order ++ [c])).length + 1 =
        (l.filter (fun p => p ∉ order)).length := by
  intro l
  induction l with
  | nil => intro _ hc; cases hc
  | cons x t ih =>
    intro hN hc ho
    rcases List.nodup_cons.mp hN with ⟨hxt, htN⟩
    by_cases hx : x = c
    · subst hx
      rw [List.filter_cons_of_neg (by simp), List.filter_cons_of_pos (by simpa using ho),
        filter_not_append_eq t hxt, List.length_cons]
    · have hct : c ∈ t := by
        rcases List.mem_cons.mp hc with h | h
        · exact absurd h.symm hx
        · exact h
      by_cases hxo : x ∈ order
      · rw [List.filter_cons_of_neg (by simp [hxo]), List.filter_cons_of_neg (by simp [hxo])]
        exact ih htN hct ho
      · have hx1 : x ∉ order ++ [c] := by
          simp only [List.mem_append, List.mem_singleton]
          rintro (h | h)
          · exact hxo h
          · exact hx h
        rw [List.filter_cons_of_pos (by simpa using hx1),
          List.filter_cons_of_pos (by simpa using hxo), List.length_cons, List.length_cons]
        rw [← ih htN hct ho]

theorem kahnLoop_topo (st : List Activity)
    (hNst : (actIds st).Nodup)
    (hsIff : ∀ i a, getAct st i = some a →
      a.successors.Nodup ∧
      ∀ v, (v ∈ a.successors ↔ (v ∈ actIds st ∧ i ∈ exPreds st v)))
    (hEP : ∀ v, (exPreds st v).Nodup) :
    ∀ (fuel : Nat) (queue : List String) (deg : String → Int) (order : List String),
      queue.length + degSum st deg < fuel →
      (order ++ queue).Nodup →
      (∀ v ∈ order ++ queue, v ∈ actIds st) →
      (∀ v, deg v = (((exPreds st v).filter (fun p => p ∉ order)).length : Int)) →
      (∀ v ∈ queue, ∀ p ∈ exPreds st v, p ∈ order) →
      (∀ o1 v o2, order = o1 ++ v :: o2 → ∀ p ∈ exPreds st v, p ∈ o1) →
      (∀ v ∈ actIds st, deg v = 0 → v ∈ order ++ queue) →
      (∀ o1 v o2, kahnLoop st fuel queue deg order = o1 ++ v :: o2 →
        ∀ p ∈ exPreds st v, p ∈ o1) ∧
      (∀ v ∈ actIds st, v ∉ kahnLoop st fuel queue deg order →
        ∃ p ∈ exPreds st v, p ∉ kahnLoop st fuel queue deg order) := by
  intro fuel
  induction fuel with
  | zero =>
    intro queue deg order hfuel
    exact absurd hfuel (Nat.not_lt_zero _)
  | succ fuel ih =>
    intro queue deg order hfuel h1 h1b hI2 hI3 hI4 hI5
    cases queue with
    | nil =>
      rw [kahnLoop]
      refine ⟨hI4, ?_⟩
      intro v hvid hvnot
      by_contra hno
      push_neg at hno
      have hnil : (exPreds st v).filter (fun p => p ∉ order) = [] := by
        rw [List.filter_eq_nil_iff]
        intro p hp hpd
        exact absurd (hno p hp) (of_decide_eq_true hpd)
      have hdv : deg v = 0 := by
        rw [hI2 v, hnil]
        rfl
      have := hI5 v hvid hdv
      rw [List.append_nil] at this
      exact hvnot this
    | cons current qrest =>
      have hcur : current ∈ actIds st :=
        h1b current (List.mem_append.mpr (Or.inr (List.mem_cons_self _ _)))
      rcases hget : getAct st current with _ | act
      · exfalso
        have := getAct_isSome.mpr hcur
        rw [hget] at this
        cases this
      · rw [kahnLoop, hget]
        dsimp only
        rcases hsIff current act hget with ⟨hsN, hsm⟩
        rcases decAll_spec act.successors deg qrest hsN with ⟨hdeg2eq, hq2eq⟩
        rw [hdeg2eq, hq2eq]
        have hcurnotord : current ∉ order := by
          have hdisj := (List.nodup_append.mp h1).2.2
          exact fun hc => hdisj hc (List.mem_cons_self _ _)
        have hdeg0 : ∀ v ∈ order ++ current :: qrest, deg v = 0 := by
          intro v hv
          have hsubord : ∀ p ∈ exPreds st v, p ∈ order := by
            rcases List.mem_append.mp hv with h | h
            · rcases List.append_of_mem h with ⟨o1, o2, ho⟩
              intro p hp
              have := hI4 o1 v o2 ho p hp
              rw [ho]
              exact List.mem_append.mpr (Or.inl this)
            · exact hI3 v h
          have hnil : (exPreds st v).filter (fun p => p ∉ order) = [] := by
            rw [List.filter_eq_nil_iff]
            intro p hp hpd
            exact absurd (hsubord p hp) (of_decide_eq_true hpd)
          rw [hI2 v, hnil]
          rfl
        have hpos : ∀ s ∈ act.successors, 1 ≤ deg s := by
          intro s hs
          rcases (hsm s).mp hs with ⟨_, hcp⟩
          have hmemf : current ∈ (exPreds st s).filter (fun p => p ∉ order) :=
            List.mem_filter.mpr ⟨hcp, by simpa using hcurnotord⟩
          have hlen : 0 < ((exPreds st s).filter (fun p => p ∉ order)).length :=
            List.length_pos.mpr (List.ne_nil_of_mem hmemf)
          rw [hI2 s]
          omega
        have henq : ∀ e ∈ act.successors.filter (fun s => deg s = 1),
            e ∈ act.successors ∧ deg e = 1 := by
          intro e he
          exact ⟨List.mem_of_mem_filter he, of_decide_eq_true ((List.mem_filter.mp he).2)⟩
        -- fuel for the recursive call
        have hdd := degSum_dec hNst hsN (fun s hs => ((hsm s).mp hs).1) hpos
        have henqlen : (act.successors.filter (fun s => deg s = 1)).length ≤
            act.successors.length := List.length_filter_le _ _
        have hfuel2 : (qrest ++ act.successors.filter (fun s => deg s = 1)).length +
            degSum st (fun v => if v ∈ act.successors then deg v - 1 else deg v) < fuel := by
          rw [List.length_append]
          simp only [List.length_cons] at hfuel
          omega
        -- Nodup for the recursive call
        have h1new : ((order ++ [current]) ++ (qrest ++
            act.successors.filter (fun s => deg s = 1))).Nodup := by
          have hre : (order ++ [current]) ++ (qrest ++
              act.successors.filter (fun s => deg s = 1)) =
              (order ++ current :: qrest) ++
                act.successors.filter (fun s => deg s = 1) := by
            simp [List.append_assoc]
          rw [hre, List.nodup_append]
          refine ⟨h1, List.Nodup.filter _ hsN, ?_⟩
          intro x hx hx2
          rcases henq x hx2 with ⟨_, hdx⟩
          have := hdeg0 x hx
          omega
        have h1bnew : ∀ v ∈ (order ++ [current]) ++ (qrest ++
            act.successors.filter (fun s => deg s = 1)), v ∈ actIds st := by
          intro v hv
          rcases List.mem_append.mp hv with h | h
          · rcases List.mem_append.mp h with h2 | h2
            · exact h1b v (List.mem_append.mpr (Or.inl h2))
            · rw [List.mem_singleton] at h2
              exact h2 ▸ hcur
          · rcases List.mem_append.mp h with h2 | h2
            · exact h1b v (List.mem_append.mpr (Or.inr (List.mem_cons_of_mem _ h2)))
            · exact ((hsm v).mp (henq v h2).1).1
        have hI2new : ∀ v, (if v ∈ act.successors then deg v - 1 else deg v) =
            (((exPreds st v).filter (fun p => p ∉ order ++ [current])).length : Int) := by
          intro v
          by_cases hvs : v ∈ act.successors
          · rw [if_pos hvs]
            rcases (hsm v).mp hvs with ⟨_, hcp⟩
            have hh := filter_not_append_len (exPreds st v) (hEP v) hcp hcurnotord
            have := hI2 v
            omega
          · rw [if_neg hvs]
            by_cases hvid : v ∈ actIds st
            · have hcp : current ∉ exPreds st v := fun hc => hvs ((hsm v).mpr ⟨hvid, hc⟩)
              rw [hI2 v, filter_not_append_eq (exPreds st v) hcp]
            · rw [hI2 v, exPreds_nil hvid]
              rfl
        have hI3new : ∀ v ∈ qrest ++ act.successors.filter (fun s => deg s = 1),
            ∀ p ∈ exPreds st v, p ∈ order ++ [current] := by
          intro v hv
          rcases List.mem_append.mp hv with h | h
          · intro p hp
            exact List.mem_append.mpr (Or.inl (hI3 v (List.mem_cons_of_mem _ h) p hp))
          · rcases henq v h with ⟨hvs, hdv⟩
            have h0 : ((exPreds st v).filter
                (fun p => p ∉ order ++ [current])).length = 0 := by
              have := hI2new v
              rw [if_pos hvs, hdv] at this
              omega
            have hnil := List.length_eq_zero.mp h0
            intro p hp
            by_contra hpn
            have : p ∈ (exPreds st v).filter (fun p => p ∉ order ++ [current]) :=
              List.mem_filter.mpr ⟨hp, by simpa using hpn⟩
            rw [hnil] at this
            cases this
        have hI4new : ∀ o1 v o2, order ++ [current] = o1 ++ v :: o2 →
            ∀ p ∈ exPreds st v, p ∈ o1 := by
          intro o1 v o2 hsplit p hp
          rcases List.append_eq_append_iff.mp hsplit with ⟨a2, ha1, ha2⟩ | ⟨c2, hc1, hc2⟩
          · cases a2 with
            | nil =>
              rw [List.append_nil] at ha1
              have hvc : v = current ∧ o2 = [] := by
                rw [List.nil_append] at ha2
                exact ⟨(List.cons.injEq _ _ _ _ ▸ ha2).1.symm,
                  ((List.cons.injEq _ _ _ _ ▸ ha2).2).symm⟩
              rw [ha1]
              exact hI3 current (List.mem_cons_self _ _) p (hvc.1 ▸ hp)
            | cons w t =>
              rw [List.cons_append] at ha2
              injection ha2 with hh1 hh2
              cases t with
              | nil => exact List.noConfusion hh2
              | cons w2 t2 => exact List.noConfusion hh2
          · cases c2 with
            | nil =>
              rw [List.append_nil] at hc1
              rw [List.nil_append] at hc2
              have hvc : v = current := (List.cons.injEq _ _ _ _ ▸ hc2.symm).1.symm
              rw [← hc1]
              have := hI3 current (List.mem_cons_self _ _) p
              rw [← hvc] at this
              exact this hp
            | cons w t =>
              rw [List.cons_append] at hc2
              injection hc2 with hh1 hh2
              rw [← hh1] at hc1
              exact hI4 o1 v t hc1 p hp
        have hI5new : ∀ v ∈ actIds st,
            (if v ∈ act.successors then deg v - 1 else deg v) = 0 →
            v ∈ (order ++ [current]) ++ (qrest ++
              act.successors.filter (fun s => deg s = 1)) := by
          intro v hvid hdv
          by_cases hvs : v ∈ act.successors
          · rw [if_pos hvs] at hdv
            have hv1 : deg v = 1 := by omega
            refine List.mem_append.mpr (Or.inr (List.mem_append.mpr (Or.inr ?_)))
            exact List.mem_filter.mpr ⟨hvs, by simpa using hv1⟩
          · rw [if_neg hvs] at hdv
            have := hI5 v hvid hdv
            rcases List.mem_append.mp this with h | h
            · exact List.mem_append.mpr (Or.inl (List.mem_append.mpr (Or.inl h)))
            · rcases List.mem_cons.mp h with h2 | h2
              · exact List.mem_append.mpr (Or.inl (List.mem_append.mpr (Or.inr
                  (by rw [List.mem_singleton]; exact h2))))
              · exact List.mem_append.mpr (Or.inr (List.mem_append.mpr (Or.inl h2)))
        exact ih (qrest ++ act.successors.filter (fun s => deg s = 1))
          (fun v => if v ∈ act.successors then deg v - 1 else deg v)
          (order ++ [current]) hfuel2 h1new h1bnew hI2new hI3new hI4new hI5new

theorem build_succIff (acts : List Activity) (hN : (actIds acts).Nodup)
    (hE : ∀ a ∈ acts, a.successors = []) :
    ∀ i a, getAct (buildSuccessors acts) i = some a →
      a.successors.Nodup ∧
      ∀ v, (v ∈ a.successors ↔
        (v ∈ actIds (buildSuccessors acts) ∧ i ∈ exPreds (buildSuccessors acts) v)) := by
  intro i a ha
  rcases buildSuccessors_succs hE i a ha with ⟨hnd, hmem⟩
  refine ⟨hnd, fun v => ?_⟩
  rw [hmem v]
  have hisome : (getAct acts i).isSome := by
    rw [getAct_isSome, ← actIds_build acts]
    exact mem_actIds.mpr ⟨a, (getAct_eq_some ha).1, (getAct_eq_some ha).2⟩
  constructor
  · intro h
    rcases mem_succPairs.mp h with ⟨act, hact, hid, e, he, hei⟩
    have hvid : v ∈ actIds acts := mem_actIds.mpr ⟨act, hact, hid⟩
    have hgv : getAct acts v = some act := by
      have := getAct_of_mem hN hact
      rw [hid] at this
      exact this
    refine ⟨by rw [actIds_build]; exact hvid, ?_⟩
    rw [exPreds_build]
    unfold exPreds predIds
    rw [hgv]
    refine List.mem_filter.mpr ⟨?_, by simpa using hisome⟩
    exact List.mem_map.mpr ⟨e, he, hei⟩
  · rintro ⟨hvid, hiexp⟩
    rw [actIds_build] at hvid
    rw [exPreds_build] at hiexp
    rcases mem_actIds.mp hvid with ⟨act, hact, hid⟩
    have hgv : getAct acts v = some act := by
      have := getAct_of_mem hN hact
      rw [hid] at this
      exact this
    have hipred : i ∈ predIds acts v := exPreds_sub_predIds hiexp
    unfold predIds at hipred
    rw [hgv] at hipred
    rcases List.mem_map.mp hipred with ⟨e, he, hei⟩
    exact mem_succPairs.mpr ⟨act, hact, hid, e, he, hei⟩

theorem build_exPreds_nodup (acts : List Activity) (hN : (actIds acts).Nodup)
    (hD : ∀ a ∈ acts, (a.predecessors.map PredEntry.activity_id).Nodup) :
    ∀ v, (exPreds (buildSuccessors acts) v).Nodup := by
  intro v
  rw [exPreds_build]
  by_cases hvid : v ∈ actIds acts
  · rcases mem_actIds.mp hvid with ⟨act, hact, hid⟩
    have hgv : getAct acts v = some act := by
      have := getAct_of_mem hN hact
      rw [hid] at this
      exact this
    unfold exPreds predIds
    rw [hgv]
    exact List.Nodup.filter _ (hD act hact)
  · rw [exPreds_nil hvid]
    exact List.nodup_nil

theorem degSum_inDeg_le (acts : List Activity) (hN : (actIds acts).Nodup) :
    degSum (buildSuccessors acts) (inDeg (buildSuccessors acts)) ≤
      totalPreds (buildSuccessors acts) := by
  have hNst : (actIds (buildSuccessors acts)).Nodup := by
    rw [actIds_build]; exact hN
  unfold degSum totalPreds actIds
  rw [List.map_map]
  refine List.sum_le_sum (fun a ha => ?_)
  simp only [Function.comp]
  rw [inDeg_eq_exPreds hNst, Int.toNat_natCast]
  have hga : getAct (buildSuccessors acts) a.activity_id = some a := getAct_of_mem hNst ha
  unfold exPreds predIds
  rw [hga]
  refine Nat.le_trans (List.length_filter_le _ _) ?_
  rw [List.length_map]

theorem topo_sort_topo (acts : List Activity) (hN : (actIds acts).Nodup)
    (hE : ∀ a ∈ acts, a.successors = [])
    (hD : ∀ a ∈ acts, (a.predecessors.map PredEntry.activity_id).Nodup)
    (hAcyc : ¬ HasCycle acts) :
    (_topological_sort (buildSuccessors acts)).Nodup ∧
    (∀ v, v ∈ _topological_sort (buildSuccessors acts) ↔ v ∈ actIds acts) ∧
    (∀ o1 v o2, _topological_sort (buildSuccessors acts) = o1 ++ v :: o2 →
      ∀ p ∈ exPreds (buildSuccessors acts) v, p ∈ o1) := by
  have hNst : (actIds (buildSuccessors acts)).Nodup := by rw [actIds_build]; exact hN
  have hsIff := build_succIff acts hN hE
  have hEP := build_exPreds_nodup acts hN hD
  have hI2init : ∀ v, inDeg (buildSuccessors acts) v =
      (((exPreds (buildSuccessors acts) v).filter
        (fun p => p ∉ ([] : List String))).length : Int) := by
    intro v
    rw [inDeg_eq_exPreds hNst]
    congr 1
    have : (exPreds (buildSuccessors acts) v).filter (fun p => p ∉ ([] : List String)) =
        exPreds (buildSuccessors acts) v :=
      List.filter_eq_self.mpr (fun p _ => by simp)
    rw [this]
  have hq0mem : ∀ v ∈ (actIds (buildSuccessors acts)).filter
      (fun v => inDeg (buildSuccessors acts) v = 0),
      v ∈ actIds (buildSuccessors acts) ∧ inDeg (buildSuccessors acts) v = 0 := by
    intro v hv
    exact ⟨List.mem_of_mem_filter hv, of_decide_eq_true (List.mem_filter.mp hv).2⟩
  have hq0preds : ∀ v ∈ (actIds (buildSuccessors acts)).filter
      (fun v => inDeg (buildSuccessors acts) v = 0),
      ∀ p ∈ exPreds (buildSuccessors acts) v, p ∈ ([] : List String) := by
    intro v hv p hp
    have hd0 := (hq0mem v hv).2
    rw [inDeg_eq_exPreds hNst] at hd0
    have : (exPreds (buildSuccessors acts) v).length = 0 := by omega
    rw [List.length_eq_zero.mp this] at hp
    cases hp
  have hfuel : ((actIds (buildSuccessors acts)).filter
        (fun v => inDeg (buildSuccessors acts) v = 0)).length +
      degSum (buildSuccessors acts) (inDeg (buildSuccessors acts)) <
      (actIds (buildSuccessors acts)).length + totalPreds (buildSuccessors acts) + 1 := by
    have h1 := List.length_filter_le (fun v => decide (inDeg (buildSuccessors acts) v = 0))
      (actIds (buildSuccessors acts))
    have h2 := degSum_inDeg_le acts hN
    omega
  have hmain := kahnLoop_topo (buildSuccessors acts) hNst hsIff hEP
    ((actIds (buildSuccessors acts)).length + totalPreds (buildSuccessors acts) + 1)
    ((actIds (buildSuccessors acts)).filter (fun v => inDeg (buildSuccessors acts) v = 0))
    (inDeg (buildSuccessors acts)) [] hfuel
    (by simpa using List.Nodup.filter _ hNst)
    (by simpa using fun v hv => (hq0mem v hv).1)
    hI2init hq0preds
    (by
      intro o1 v o2 hsplit
      exfalso
      cases o1 with
      | nil => exact List.noConfusion hsplit
      | cons w t => exact List.noConfusion hsplit)
    (by
      intro v hvid hd0
      refine List.mem_append.mpr (Or.inr ?_)
      exact List.mem_filter.mpr ⟨hvid, by simpa using hd0⟩)
  have hnodup := kahnLoop_nodup (buildSuccessors acts)
    (fun i a ha => ⟨(hsIff i a ha).1, fun v hv => ((hsIff i a ha).2 v).mp hv |>.1⟩)
    ((actIds (buildSuccessors acts)).length + totalPreds (buildSuccessors acts) + 1)
    ((actIds (buildSuccessors acts)).filter (fun v => inDeg (buildSuccessors acts) v = 0))
    (inDeg (buildSuccessors acts)) []
    (by simpa using List.Nodup.filter _ hNst)
    (by simpa using fun v hv => (hq0mem v hv).1)
    (by
      simp only [List.nil_append]
      intro v hv
      have := (hq0mem v hv).2
      omega)
  have hall : ∀ v ∈ actIds (buildSuccessors acts),
      v ∈ kahnLoop (buildSuccessors acts)
        ((actIds (buildSuccessors acts)).length + totalPreds (buildSuccessors acts) + 1)
        ((actIds (buildSuccessors acts)).filter
          (fun v => inDeg (buildSuccessors acts) v = 0))
        (inDeg (buildSuccessors acts)) [] := by
    by_contra hno
    push_neg at hno
    rcases hno with ⟨v0, hv0id, hv0not⟩
    have hstep : ∀ v ∈ (actIds (buildSuccessors acts)).filter
        (fun v => v ∉ kahnLoop (buildSuccessors acts)
          ((actIds (buildSuccessors acts)).length + totalPreds (buildSuccessors acts) + 1)
          ((actIds (buildSuccessors acts)).filter
            (fun v => inDeg (buildSuccessors acts) v = 0))
          (inDeg (buildSuccessors acts)) []),
        ∃ p, p ∈ (actIds (buildSuccessors acts)).filter
          (fun v => v ∉ kahnLoop (buildSuccessors acts)
            ((actIds (buildSuccessors acts)).length + totalPreds (buildSuccessors acts) + 1)
            ((actIds (buildSuccessors acts)).filter
              (fun v => inDeg (buildSuccessors acts) v = 0))
            (inDeg (buildSuccessors acts)) []) ∧
          p ∈ exPreds (buildSuccessors acts) v := by
      intro v hv
      have hvid := List.mem_of_mem_filter hv
      have hvnot := of_decide_eq_true (List.mem_filter.mp hv).2
      rcases hmain.2 v hvid hvnot with ⟨p, hp, hpnot⟩
      refine ⟨p, List.mem_filter.mpr ⟨exPreds_sub_ids hp, by simpa using hpnot⟩, hp⟩
    have hne : (actIds (buildSuccessors acts)).filter
        (fun v => v ∉ kahnLoop (buildSuccessors acts)
          ((actIds (buildSuccessors acts)).length + totalPreds (buildSuccessors acts) + 1)
          ((actIds (buildSuccessors acts)).filter
            (fun v => inDeg (buildSuccessors acts) v = 0))
          (inDeg (buildSuccessors acts)) []) ≠ [] := by
      intro hc
      have : v0 ∈ (actIds (buildSuccessors acts)).filter
          (fun v => v ∉ kahnLoop (buildSuccessors acts)
            ((actIds (buildSuccessors acts)).length + totalPreds (buildSuccessors acts) + 1)
            ((actIds (buildSuccessors acts)).filter
              (fun v => inDeg (buildSuccessors acts) v = 0))
            (inDeg (buildSuccessors acts)) []) :=
        List.mem_filter.mpr ⟨hv0id, by simpa using hv0not⟩
      rw [hc] at this
      cases this
    rcases cycle_of_pred_closed hne hstep with ⟨u, hu⟩
    refine hAcyc ⟨u, ?_⟩
    refine Relation.TransGen.mono ?_ hu
    intro x y hxy
    constructor
    · rw [← predIds_build acts]
      exact exPreds_sub_predIds hxy
    · rw [← actIds_build acts]
      exact exPreds_sub_ids hxy
  have hfinal : _topological_sort (buildSuccessors acts) =
      kahnLoop (buildSuccessors acts)
        ((actIds (buildSuccessors acts)).length + totalPreds (buildSuccessors acts) + 1)
        ((actIds (buildSuccessors acts)).filter
          (fun v => inDeg (buildSuccessors acts) v = 0))
        (inDeg (buildSuccessors acts)) [] := by
    unfold _topological_sort
    rw [dictKeys_eq_self hNst]
    exact fallback_noop (buildSuccessors acts) _
      (fun a ha => hall a.activity_id (mem_actIds.mpr ⟨a, ha, rfl⟩))
  rw [hfinal]
  refine ⟨hnodup.1, fun v => ?_, hmain.1⟩
  constructor
  · intro h
    have := hnodup.2 v h
    rw [actIds_build] at this
    exact this
  · intro h
    refine hall v ?_
    rw [actIds_build]
    exact h

/-! ## Forward and backward pass: fold and step lemmas -/

theorem findPredEntry_spec : ∀ (ps : List PredEntry) (i : String) (e : PredEntry),
    findPredEntry ps i = some e → e ∈ ps ∧ e.activity_id = i := by
  intro ps
  induction ps with
  | nil => intro i e h; cases h
  | cons p rest ih =>
    intro i e h
    rw [findPredEntry] at h
    by_cases hp : p.activity_id = i
    · rw [if_pos hp] at h
      cases h
      exact ⟨List.mem_cons_self _ _, hp⟩
    · rw [if_neg hp] at h
      rcases ih i e h with ⟨h1, h2⟩
      exact ⟨List.mem_cons_of_mem _ h1, h2⟩

theorem fwdFold_ge_init {st : List Activity} {dur : Int} :
    ∀ (ps : List PredEntry) (m : Int), m ≤ fwdFold st dur ps m := by
  intro ps
  induction ps with
  | nil => intro m; exact le_refl m
  | cons p rest ih =>
    intro m
    rw [fwdFold]
    cases getAct st p.activity_id with
    | none => exact ih m
    | some pa => exact le_trans (le_max_left _ _) (ih _)

theorem fwdFold_ge_candidate {st : List Activity} {dur : Int} :
    ∀ (ps : List PredEntry) (m : Int) (e : PredEntry) (pa : Activity),
      e ∈ ps → getAct st e.activity_id = some pa →
      fwdCandidate e.rel_type e.lag pa dur ≤ fwdFold st dur ps m := by
  intro ps
  induction ps with
  | nil => intro m e pa h; cases h
  | cons p rest ih =>
    intro m e pa he hget
    rw [fwdFold]
    rcases List.mem_cons.mp he with h | h
    · subst h
      rw [hget]
      exact le_trans (le_max_right _ _) (fwdFold_ge_init rest _)
    · cases getAct st p.activity_id with
      | none => exact ih m e pa h hget
      | some pa2 => exact ih _ e pa h hget

theorem fwdFold_congr {st st' : List Activity} {dur : Int} :
    ∀ (ps : List PredEntry) (m : Int),
      (∀ e ∈ ps, getAct st e.activity_id = getAct st' e.activity_id) →
      fwdFold st dur ps m = fwdFold st' dur ps m := by
  intro ps
  induction ps with
  | nil => intro m _; rfl
  | cons p rest ih =>
    intro m h
    rw [fwdFold, fwdFold, ← h p (List.mem_cons_self _ _)]
    cases getAct st p.activity_id with
    | none => exact ih m (fun e he => h e (List.mem_cons_of_mem _ he))
    | some pa => exact ih _ (fun e he => h e (List.mem_cons_of_mem _ he))

theorem bwdFold_le_init {st : List Activity} {i : String} {dur : Int} :
    ∀ (ss : List String) (m : Int), bwdFold st i dur ss m ≤ m := by
  intro ss
  induction ss with
  | nil => intro m; exact le_refl m
  | cons s rest ih =>
    intro m
    cases hg : getAct st s with
    | none =>
      simp only [bwdFold, hg]
      exact ih m
    | some succ =>
      cases hf : findPredEntry succ.predecessors i with
      | none =>
        simp only [bwdFold, hg, hf]
        exact ih m
      | some e =>
        simp only [bwdFold, hg, hf]
        exact le_trans (ih _) (min_le_left _ _)

theorem bwdFold_ge_bound {st : List Activity} {i : String} {dur B : Int} :
    ∀ (ss : List String) (m : Int), B ≤ m →
      (∀ s ∈ ss, ∀ succ, getAct st s = some succ →
        ∀ e, findPredEntry succ.predecessors i = some e →
        B ≤ bwdCandidate e.rel_type e.lag succ dur) →
      B ≤ bwdFold st i dur ss m := by
  intro ss
  induction ss with
  | nil => intro m hm _; exact hm
  | cons s rest ih =>
    intro m hm hcand
    cases hg : getAct st s with
    | none =>
      simp only [bwdFold, hg]
      exact ih m hm (fun s2 hs2 => hcand s2 (List.mem_cons_of_mem _ hs2))
    | some succ =>
      cases hf : findPredEntry succ.predecessors i with
      | none =>
        simp only [bwdFold, hg, hf]
        exact ih m hm (fun s2 hs2 => hcand s2 (List.mem_cons_of_mem _ hs2))
      | some e =>
        simp only [bwdFold, hg, hf]
        refine ih _ (le_min hm ?_) (fun s2 hs2 => hcand s2 (List.mem_cons_of_mem _ hs2))
        exact hcand s (List.mem_cons_self _ _) succ hg e hf

theorem bwdFold_congr {st st' : List Activity} {i : String} {dur : Int} :
    ∀ (ss : List String) (m : Int),
      (∀ s ∈ ss, getAct st s = getAct st' s) →
      bwdFold st i dur ss m = bwdFold st' i dur ss m := by
  intro ss
  induction ss with
  | nil => intro m _; rfl
  | cons s rest ih =>
    intro m h
    have hs := h s (List.mem_cons_self _ _)
    cases hg : getAct st s with
    | none =>
      simp only [bwdFold, hg, ← hs, hg]
      exact ih m (fun s2 hs2 => h s2 (List.mem_cons_of_mem _ hs2))
    | some succ =>
      cases hf : findPredEntry succ.predecessors i with
      | none =>
        simp only [bwdFold, hg, ← hs, hg, hf]
        exact ih m (fun s2 hs2 => h s2 (List.mem_cons_of_mem _ hs2))
      | some e =>
        simp only [bwdFold, hg, ← hs, hg, hf]
        exact ih _ (fun s2 hs2 => h s2 (List.mem_cons_of_mem _ hs2))

theorem foldlMax_ge_init : ∀ (l : List Activity) (m : Int),
    m ≤ l.foldl (fun m b => max m b.early_finish) m := by
  intro l
  induction l with
  | nil => intro m; exact le_refl m
  | cons a rest ih =>
    intro m
    rw [List.foldl_cons]
    exact le_trans (le_max_left _ _) (ih _)

theorem foldlMax_ge_mem : ∀ (l : List Activity) (m : Int) (a : Activity), a ∈ l →
    a.early_finish ≤ l.foldl (fun m b => max m b.early_finish) m := by
  intro l
  induction l with
  | nil => intro m a h; cases h
  | cons b rest ih =>
    intro m a h
    rw [List.foldl_cons]
    rcases List.mem_cons.mp h with h2 | h2
    · rw [h2]
      exact le_trans (le_max_right _ _) (foldlMax_ge_init rest _)
    · exact ih _ a h2

theorem projectFinish_ge {st : List Activity} {a : Activity} (h : a ∈ st) :
    a.early_finish ≤ projectFinish st := by
  unfold projectFinish
  cases st with
  | nil => cases h
  | cons b rest =>
    rcases List.mem_cons.mp h with h2 | h2
    · rw [h2]
      exact foldlMax_ge_init rest _
    · exact foldlMax_ge_mem rest _ a h2

theorem foldlMax_map {G : Activity → Activity}
    (h : ∀ a, (G a).early_finish = a.early_finish) :
    ∀ (l : List Activity) (m : Int),
      (l.map G).foldl (fun m b => max m b.early_finish) m =
        l.foldl (fun m b => max m b.early_finish) m := by
  intro l
  induction l with
  | nil => intro m; rfl
  | cons a rest ih =>
    intro m
    rw [List.map_cons, List.foldl_cons, List.foldl_cons, h a]
    exact ih _

theorem projectFinish_map {st : List Activity} {G : Activity → Activity}
    (h : ∀ a, (G a).early_finish = a.early_finish) :
    projectFinish (st.map G) = projectFinish st := by
  cases st with
  | nil => rfl
  | cons a rest =>
    rw [List.map_cons]
    simp only [projectFinish]
    rw [h a]
    exact foldlMax_map h rest _

theorem forwardStep_getAct_other {st : List Activity} {i j : String} (h : j ≠ i) :
    getAct (forwardStep st i) j = getAct st j := by
  cases hg : getAct st i with
  | none => simp only [forwardStep, hg]
  | some act =>
    simp only [forwardStep, hg]
    have h2 := @getAct_updAct (fun a =>
      { a with early_start := esVal st act, early_finish := esVal st act + a.duration })
      (fun a => rfl) st i j
    rw [h2, if_neg h]

theorem forwardStep_getAct_self {st : List Activity} {i : String} {act : Activity}
    (h : getAct st i = some act) :
    getAct (forwardStep st i) i = some { act with
      early_start := esVal st act, early_finish := esVal st act + act.duration } := by
  simp only [forwardStep, h]
  have h2 := @getAct_updAct (fun a =>
    { a with early_start := esVal st act, early_finish := esVal st act + a.duration })
    (fun a => rfl) st i i
  rw [h2, if_pos rfl, h]
  rfl

theorem backwardStep_getAct_other {pf : Int} {st : List Activity} {i j : String}
    (h : j ≠ i) : getAct (backwardStep pf st i) j = getAct st j := by
  cases hg : getAct st i with
  | none => simp only [backwardStep, hg]
  | some act =>
    simp only [backwardStep, hg]
    have h2 := @getAct_updAct (fun a =>
      { a with late_finish := lfVal pf st i act,
               late_start := lfVal pf st i act - a.duration,
               total_float := lfVal pf st i act - a.duration - a.early_start,
               is_critical := decide (lfVal pf st i act - a.duration - a.early_start = 0) })
      (fun a => rfl) st i j
    rw [h2, if_neg h]

theorem backwardStep_getAct_self {pf : Int} {st : List Activity} {i : String}
    {act : Activity} (h : getAct st i = some act) :
    getAct (backwardStep pf st i) i = some { act with
      late_finish := lfVal pf st i act,
      late_start := lfVal pf st i act - act.duration,
      total_float := lfVal pf st i act - act.duration - act.early_start,
      is_critical := decide (lfVal pf st i act - act.duration - act.early_start = 0) } := by
  simp only [backwardStep, h]
  have h2 := @getAct_updAct (fun a =>
    { a with late_finish := lfVal pf st i act,
             late_start := lfVal pf st i act - a.duration,
             total_float := lfVal pf st i act - a.duration - a.early_start,
             is_critical := decide (lfVal pf st i act - a.duration - a.early_start = 0) })
    (fun a => rfl) st i i
  rw [h2, if_pos rfl, h]
  rfl

theorem actIds_forwardStep (st : List Activity) (i : String) :
    actIds (forwardStep st i) = actIds st := by
  cases hg : getAct st i with
  | none => simp only [forwardStep, hg]
  | some act =>
    simp only [forwardStep, hg]
    exact @actIds_updAct (fun a =>
      { a with early_start := esVal st act, early_finish := esVal st act + a.duration })
      (fun a => rfl) st i

theorem actIds_backwardStep (pf : Int) (st : List Activity) (i : String) :
    actIds (backwardStep pf st i) = actIds st := by
  cases hg : getAct st i with
  | none => simp only [backwardStep, hg]
  | some act =>
    simp only [backwardStep, hg]
    exact @actIds_updAct (fun a =>
      { a with late_finish := lfVal pf st i act,
               late_start := lfVal pf st i act - a.duration,
               total_float := lfVal pf st i act - a.duration - a.early_start,
               is_critical := decide (lfVal pf st i act - a.duration - a.early_start = 0) })
      (fun a => rfl) st i

theorem actIds_runForward : ∀ (order : List String) (st : List Activity),
    actIds (runForward st order) = actIds st := by
  intro order
  induction order with
  | nil => intro st; rfl
  | cons i rest ih =>
    intro st
    rw [runForward, ih, actIds_forwardStep]

theorem actIds_runBackward (pf : Int) : ∀ (order : List String) (st : List Activity),
    actIds (runBackward pf st order) = actIds st := by
  intro order
  induction order with
  | nil => intro st; rfl
  | cons i rest ih =>
    intro st
    rw [runBackward, ih, actIds_backwardStep]

theorem runBackward_eq_map (pf : Int) : ∀ (order : List String) (st : List Activity),
    ∃ G : Activity → Activity, runBackward pf st order = st.map G ∧
      ∀ a, (G a).activity_id = a.activity_id ∧ (G a).duration = a.duration ∧
        (G a).predecessors = a.predecessors ∧ (G a).successors = a.successors ∧
        (G a).early_start = a.early_start ∧ (G a).early_finish = a.early_finish := by
  intro order
  induction order with
  | nil =>
    intro st
    exact ⟨id, (List.map_id st).symm, fun a => ⟨rfl, rfl, rfl, rfl, rfl, rfl⟩⟩
  | cons i rest ih =>
    intro st
    rw [runBackward]
    rcases ih (backwardStep pf st i) with ⟨G, hG, hGs⟩
    rcases hg : getAct st i with _ | act
    · have hb : backwardStep pf st i = st := by
        simp only [backwardStep, hg]
      rw [hb] at hG ⊢
      exact ⟨G, hG, hGs⟩
    · have hb : backwardStep pf st i = st.map (fun a =>
          if a.activity_id = i then
            { a with
              late_finish := lfVal pf st i act,
              late_start := lfVal pf st i act - a.duration,
              total_float := lfVal pf st i act - a.duration - a.early_start,
              is_critical := decide (lfVal pf st i act - a.duration - a.early_start = 0) }
          else a) := by
        simp only [backwardStep, hg]
        rfl
      rw [hb] at hG ⊢
      rw [List.map_map] at hG
      refine ⟨_, hG, ?_⟩
      intro a
      simp only [Function.comp]
      by_cases h : a.activity_id = i
      · rw [if_pos h]
        exact hGs _
      · rw [if_neg h]
        exact hGs a

/-! ## Run-level lemmas for the forward and backward passes -/

theorem runForward_append : ∀ (l1 l2 : List String) (st : List Activity),
    runForward st (l1 ++ l2) = runForward (runForward st l1) l2 := by
  intro l1
  induction l1 with
  | nil => intro l2 st; rfl
  | cons i rest ih =>
    intro l2 st
    rw [List.cons_append, runForward, runForward]
    exact ih l2 (forwardStep st i)

theorem runBackward_append (pf : Int) : ∀ (l1 l2 : List String) (st : List Activity),
    runBackward pf st (l1 ++ l2) = runBackward pf (runBackward pf st l1) l2 := by
  intro l1
  induction l1 with
  | nil => intro l2 st; rfl
  | cons i rest ih =>
    intro l2 st
    rw [List.cons_append, runBackward, runBackward]
    exact ih l2 (backwardStep pf st i)

theorem runForward_getAct_notin : ∀ (l : List String) (st : List Activity) (j : String),
    j ∉ l → getAct (runForward st l) j = getAct st j := by
  intro l
  induction l with
  | nil => intro st j _; rfl
  | cons i rest ih =>
    intro st j hj
    rw [runForward, ih (forwardStep st i) j (fun h => hj (List.mem_cons_of_mem _ h))]
    exact forwardStep_getAct_other
      (by intro h; exact hj (by rw [h]; exact List.mem_cons_self _ _))

theorem runBackward_getAct_notin (pf : Int) :
    ∀ (l : List String) (st : List Activity) (j : String),
    j ∉ l → getAct (runBackward pf st l) j = getAct st j := by
  intro l
  induction l with
  | nil => intro st j _; rfl
  | cons i rest ih =>
    intro st j hj
    rw [runBackward, ih (backwardStep pf st i) j (fun h => hj (List.mem_cons_of_mem _ h))]
    exact backwardStep_getAct_other
      (by intro h; exact hj (by rw [h]; exact List.mem_cons_self _ _))

theorem esVal_congr {st st' : List Activity} {act : Activity}
    (h : ∀ e ∈ act.predecessors, getAct st e.activity_id = getAct st' e.activity_id) :
    esVal st act = esVal st' act := by
  unfold esVal
  by_cases hp : act.predecessors = []
  · rw [if_pos hp, if_pos hp]
  · rw [if_neg hp, if_neg hp]
    exact fwdFold_congr act.predecessors 0 h

theorem lfVal_congr {pf : Int} {st st' : List Activity} {i : String} {act : Activity}
    (h : ∀ s ∈ act.successors, getAct st s = getAct st' s) :
    lfVal pf st i act = lfVal pf st' i act := by
  unfold lfVal
  by_cases hp : act.successors = []
  · rw [if_pos hp, if_pos hp]
  · rw [if_neg hp, if_neg hp]
    exact bwdFold_congr act.successors pf h

theorem lfVal_le_pf {pf : Int} {st : List Activity} {i : String} {act : Activity} :
    lfVal pf st i act ≤ pf := by
  unfold lfVal
  by_cases hp : act.successors = []
  · rw [if_pos hp]
  · rw [if_neg hp]
    exact bwdFold_le_init act.successors pf

theorem esVal_nonneg {st : List Activity} {act : Activity} : 0 ≤ esVal st act := by
  unfold esVal
  by_cases hp : act.predecessors = []
  · rw [if_pos hp]
  · rw [if_neg hp]
    exact fwdFold_ge_init act.predecessors 0

theorem nodup_split_not_mem {l1 l2 : List String} {i : String}
    (h : (l1 ++ i :: l2).Nodup) : i ∉ l1 ∧ i ∉ l2 ∧ ∀ p ∈ l1, p ∉ i :: l2 := by
  rw [List.nodup_append] at h
  rcases h with ⟨h1, h2, hd⟩
  rw [List.nodup_cons] at h2
  exact ⟨fun hc => hd hc (List.mem_cons_self _ _), h2.1, fun p hp hmem => hd hp hmem⟩

/-- A membership constructor for `exPreds`. -/
theorem mem_exPreds {st1 : List Activity} {s i : String} {b : Activity} {e : PredEntry}
    (hgs : getAct st1 s = some b) (he : e ∈ b.predecessors) (hei : e.activity_id = i)
    (hex : (getAct st1 i).isSome) : i ∈ exPreds st1 s := by
  unfold exPreds
  refine List.mem_filter.mpr ⟨?_, hex⟩
  unfold predIds
  rw [hgs]
  exact List.mem_map.mpr ⟨e, he, hei⟩

/-- In a duplicate-free topological order, any existing-predecessor edge
`i → s` places `s` strictly after `i`. -/
theorem succ_after {st1 : List Activity} {O : List String} (hNo : O.Nodup)
    (hT : ∀ o1 v o2, O = o1 ++ v :: o2 → ∀ p ∈ exPreds st1 v, p ∈ o1)
    {i s : String} (hsO : s ∈ O) (hie : i ∈ exPreds st1 s) :
    ∀ l1 l2, O = l1 ++ i :: l2 → s ∈ l2 := by
  intro l1 l2 hsplit
  have hninl1 : i ∉ l1 := (nodup_split_not_mem (hsplit ▸ hNo)).1
  have hsi : s ≠ i := by
    intro h
    subst h
    exact hninl1 (hT l1 s l2 hsplit s hie)
  have hsl1 : s ∉ l1 := by
    intro hmem
    rcases List.append_of_mem hmem with ⟨a1, a2, h12⟩
    have hO2 : O = a1 ++ s :: (a2 ++ i :: l2) := by
      rw [hsplit, h12]
      simp [List.append_assoc]
    have hi1 : i ∈ a1 := hT a1 s (a2 ++ i :: l2) hO2 i hie
    exact hninl1 (by rw [h12]; exact List.mem_append_left _ hi1)
  rw [hsplit] at hsO
  rcases List.mem_append.mp hsO with h | h
  · exact absurd h hsl1
  · rcases List.mem_cons.mp h with h | h
    · exact absurd h hsi
    · exact h

/-- Characterization of the forward pass over a duplicate-free
topologically sorted order: each processed activity ends with
`early_start = esVal` evaluated in the *final* state (its predecessors
are final when it is processed and never change afterwards) and
`early_finish = early_start + duration`. -/
theorem runForward_char {st1 : List Activity} {O : List String} (hNo : O.Nodup)
    (hT : ∀ o1 v o2, O = o1 ++ v :: o2 → ∀ p ∈ exPreds st1 v, p ∈ o1) :
    ∀ i ∈ O, ∀ act1, getAct st1 i = some act1 →
      getAct (runForward st1 O) i = some { act1 with
        early_start := esVal (runForward st1 O) act1,
        early_finish := esVal (runForward st1 O) act1 + act1.duration } := by
  intro i hiO act1 hact1
  rcases List.append_of_mem hiO with ⟨l1, l2, hsplit⟩
  rcases nodup_split_not_mem (hsplit ▸ hNo) with ⟨hi1, hi2, hdisj⟩
  have hrun : runForward st1 O = runForward (forwardStep (runForward st1 l1) i) l2 := by
    rw [hsplit, runForward_append]
    rfl
  have hA : getAct (runForward st1 l1) i = some act1 := by
    rw [runForward_getAct_notin l1 st1 i hi1]
    exact hact1
  have hB := forwardStep_getAct_self hA
  have hfinal : getAct (runForward st1 O) i = some { act1 with
      early_start := esVal (runForward st1 l1) act1,
      early_finish := esVal (runForward st1 l1) act1 + act1.duration } := by
    rw [hrun, runForward_getAct_notin l2 _ i hi2]
    exact hB
  have hes : esVal (runForward st1 l1) act1 = esVal (runForward st1 O) act1 := by
    refine esVal_congr (fun e he => ?_)
    by_cases hex : e.activity_id ∈ actIds st1
    · have hpe : e.activity_id ∈ exPreds st1 i := by
        unfold exPreds
        refine List.mem_filter.mpr ⟨?_, getAct_isSome.mpr hex⟩
        unfold predIds
        rw [hact1]
        exact List.mem_map.mpr ⟨e, he, rfl⟩
      have hpl1 : e.activity_id ∈ l1 := hT l1 i l2 hsplit _ hpe
      have hpni : e.activity_id ≠ i := fun h => hi1 (h ▸ hpl1)
      have hpnl2 : e.activity_id ∉ i :: l2 := hdisj _ hpl1
      rw [hrun, runForward_getAct_notin l2 _ _ (fun h => hpnl2 (List.mem_cons_of_mem _ h)),
        forwardStep_getAct_other hpni]
    · rw [getAct_eq_none.mpr (fun h => hex ((actIds_runForward l1 st1) ▸ h)),
        getAct_eq_none.mpr (fun h => hex ((actIds_runForward O st1) ▸ h))]
  rw [hfinal, hes]

/-- Characterization of the backward pass over the reversed order: when
every existing successor of a processed activity appears strictly after
it in the (forward) order, each processed activity ends with
`late_finish = lfVal` evaluated in the *final* state, and
`late_start`, `total_float`, `is_critical` derived from it. -/
theorem runBackward_char {pf : Int} {st2 : List Activity} {O : List String} (hNo : O.Nodup)
    (hAfter : ∀ i ∈ O, ∀ act, getAct st2 i = some act → ∀ s ∈ act.successors,
      s ∉ actIds st2 ∨ ∀ l1 l2, O = l1 ++ i :: l2 → s ∈ l2) :
    ∀ i ∈ O, ∀ act2, getAct st2 i = some act2 →
      getAct (runBackward pf st2 O.reverse) i = some { act2 with
        late_finish := lfVal pf (runBackward pf st2 O.reverse) i act2,
        late_start := lfVal pf (runBackward pf st2 O.reverse) i act2 - act2.duration,
        total_float := lfVal pf (runBackward pf st2 O.reverse) i act2 - act2.duration -
          act2.early_start,
        is_critical := decide (lfVal pf (runBackward pf st2 O.reverse) i act2 -
          act2.duration - act2.early_start = 0) } := by
  intro i hiO act2 hact2
  rcases List.append_of_mem hiO with ⟨l1, l2, hsplit⟩
  rcases nodup_split_not_mem (hsplit ▸ hNo) with ⟨hi1, hi2, hdisj⟩
  have hrev : O.reverse = l2.reverse ++ i :: l1.reverse := by
    rw [hsplit]
    simp
  have hrun : runBackward pf st2 O.reverse =
      runBackward pf (backwardStep pf (runBackward pf st2 l2.reverse) i) l1.reverse := by
    rw [hrev, runBackward_append]
    rfl
  have hA : getAct (runBackward pf st2 l2.reverse) i = some act2 := by
    rw [runBackward_getAct_notin pf l2.reverse st2 i (fun h => hi2 (List.mem_reverse.mp h))]
    exact hact2
  have hB := @backwardStep_getAct_self pf (runBackward pf st2 l2.reverse) i act2 hA
  have hfinal : getAct (runBackward pf st2 O.reverse) i = some { act2 with
      late_finish := lfVal pf (runBackward pf st2 l2.reverse) i act2,
      late_start := lfVal pf (runBackward pf st2 l2.reverse) i act2 - act2.duration,
      total_float := lfVal pf (runBackward pf st2 l2.reverse) i act2 - act2.duration -
        act2.early_start,
      is_critical := decide (lfVal pf (runBackward pf st2 l2.reverse) i act2 -
        act2.duration - act2.early_start = 0) } := by
    rw [hrun, runBackward_getAct_notin pf l1.reverse _ i (fun h => hi1 (List.mem_reverse.mp h))]
    exact hB
  have hlf : lfVal pf (runBackward pf st2 l2.reverse) i act2 =
      lfVal pf (runBackward pf st2 O.reverse) i act2 := by
    refine lfVal_congr (fun s hs => ?_)
    rcases hAfter i hiO act2 hact2 s hs with hnot | hafter
    · rw [getAct_eq_none.mpr (fun h => hnot ((actIds_runBackward pf l2.reverse st2) ▸ h)),
        getAct_eq_none.mpr (fun h => hnot ((actIds_runBackward pf O.reverse st2) ▸ h))]
    · have hsl2 : s ∈ l2 := hafter l1 l2 hsplit
      have hsi : s ≠ i := fun h => hi2 (h ▸ hsl2)
      have hsnl1 : s ∉ l1.reverse := by
        intro h
        exact hdisj s (List.mem_reverse.mp h) (List.mem_cons_of_mem _ hsl2)
      rw [hrun, runBackward_getAct_notin pf l1.reverse _ s hsnl1,
        backwardStep_getAct_other hsi]
  rw [hfinal, hlf]

/-- For the `compute_cpm` pipeline on valid input, every existing
successor of a processed activity appears strictly after it in the
topological order (the hypothesis `runBackward_char` needs). -/
theorem pipeline_hAfter (acts : List Activity)
    (hN : (actIds acts).Nodup) (hE : ∀ a ∈ acts, a.successors = [])
    (hD : ∀ a ∈ acts, (a.predecessors.map PredEntry.activity_id).Nodup)
    (hdet : detect_cycles acts = false) :
    ∀ i ∈ _topological_sort (buildSuccessors acts), ∀ act,
      getAct (runForward (buildSuccessors acts) (_topological_sort (buildSuccessors acts))) i
        = some act →
      ∀ s ∈ act.successors,
        s ∉ actIds (runForward (buildSuccessors acts)
          (_topological_sort (buildSuccessors acts))) ∨
        ∀ l1 l2, _topological_sort (buildSuccessors acts) = l1 ++ i :: l2 → s ∈ l2 := by
  rcases topo_sort_topo acts hN hE hD (no_cycle_of_detect_false hdet) with ⟨hNo, hMemIff, hT⟩
  intro i hiO act hact s hs
  by_cases hsIds : s ∈ actIds (runForward (buildSuccessors acts)
      (_topological_sort (buildSuccessors acts)))
  · right
    have hiIds : i ∈ actIds acts := (hMemIff i).mp hiO
    have hiIds1 : i ∈ actIds (buildSuccessors acts) := by
      rw [actIds_build]
      exact hiIds
    rcases hg1 : getAct (buildSuccessors acts) i with _ | act1
    · exact absurd hiIds1 (getAct_eq_none.mp hg1)
    have hchar := runForward_char hNo hT i hiO act1 hg1
    have hactEq := Option.some.inj (hact.symm.trans hchar)
    have hs1 : s ∈ act1.successors := by
      rw [hactEq] at hs
      exact hs
    have hpair : (i, s) ∈ succPairs acts := ((buildSuccessors_succs hE i act1 hg1).2 s).mp hs1
    rcases mem_succPairs.mp hpair with ⟨actv, hmemv, hidv, e, hev, hepi⟩
    have hgv : getAct acts s = some actv := by
      have h0 := getAct_of_mem hN hmemv
      rwa [hidv] at h0
    have hsIds1 : s ∈ actIds (buildSuccessors acts) :=
      (actIds_runForward (_topological_sort (buildSuccessors acts)) (buildSuccessors acts)) ▸
        hsIds
    rcases hg1s : getAct (buildSuccessors acts) s with _ | s1
    · exact absurd hsIds1 (getAct_eq_none.mp hg1s)
    have hpreds : s1.predecessors = actv.predecessors := by
      have hbp := build_preds acts s
      rw [hg1s, hgv] at hbp
      simp only [Option.map_some'] at hbp
      exact Option.some.inj hbp
    have hie : i ∈ exPreds (buildSuccessors acts) s :=
      mem_exPreds hg1s (hpreds.symm ▸ hev) hepi (by rw [hg1]; rfl)
    have hsO : s ∈ _topological_sort (buildSuccessors acts) :=
      (hMemIff s).mpr ((actIds_build acts) ▸ hsIds1)
    exact fun l1 l2 hsplit => succ_after hNo hT hsO hie l1 l2 hsplit
  · exact Or.inl hsIds

/-- Every activity whose id the backward pass processes (and every one
already satisfying the bound) ends with `late_finish ≤ pf`. -/
theorem runBackward_lf_le (pf : Int) : ∀ (l : List String) (st : List Activity),
    (∀ a ∈ st, a.activity_id ∈ l ∨ a.late_finish ≤ pf) →
    ∀ a ∈ runBackward pf st l, a.late_finish ≤ pf := by
  intro l
  induction l with
  | nil =>
    intro st h a ha
    rcases h a ha with h2 | h2
    · exact absurd h2 (List.not_mem_nil _)
    · exact h2
  | cons i rest ih =>
    intro st h a ha
    rw [runBackward] at ha
    refine ih (backwardStep pf st i) ?_ a ha
    intro b hb
    cases hg : getAct st i with
    | none =>
      have hstep : backwardStep pf st i = st := by
        simp only [backwardStep, hg]
      rw [hstep] at hb
      rcases h b hb with h2 | h2
      · rcases List.mem_cons.mp h2 with h3 | h3
        · exact absurd (h3 ▸ mem_actIds.mpr ⟨b, hb, rfl⟩) (getAct_eq_none.mp hg)
        · exact Or.inl h3
      · exact Or.inr h2
    | some act =>
      have hstep : backwardStep pf st i = st.map (fun a =>
          if a.activity_id = i then
            { a with
              late_finish := lfVal pf st i act,
              late_start := lfVal pf st i act - a.duration,
              total_float := lfVal pf st i act - a.duration - a.early_start,
              is_critical := decide (lfVal pf st i act - a.duration - a.early_start = 0) }
          else a) := by
        simp only [backwardStep, hg]
        rfl
      rw [hstep] at hb
      rcases List.mem_map.mp hb with ⟨c, hc, hbc⟩
      subst hbc
      by_cases hci : c.activity_id = i
      · right
        simp only [if_pos hci]
        exact lfVal_le_pf
      · simp only [if_neg hci]
        rcases h c hc with h2 | h2
        · rcases List.mem_cons.mp h2 with h3 | h3
          · exact absurd h3 hci
          · exact Or.inl h3
        · exact Or.inr h2

/-- The heart of the float-nonnegativity proof: on a duplicate-free,
complete, topologically sorted order, every activity's `early_finish`
(after the forward pass) is at most the `late_finish` the backward pass
assigns it.  Induction is on the length of the order's tail after the
activity: every existing successor sits strictly later, so its late
values are already characterized and bounded. -/
theorem bwd_ef_le_lf {st1 : List Activity} {O : List String} {st2 : List Activity}
    {pf : Int} {res : List Activity}
    (hst2 : st2 = runForward st1 O)
    (hpf : pf = projectFinish st2)
    (hres : res = runBackward pf st2 O.reverse)
    (hNo : O.Nodup)
    (hT : ∀ o1 v o2, O = o1 ++ v :: o2 → ∀ p ∈ exPreds st1 v, p ∈ o1)
    (hMem : ∀ v ∈ actIds st1, v ∈ O)
    (hAfter : ∀ i ∈ O, ∀ act, getAct st2 i = some act → ∀ s ∈ act.successors,
      s ∉ actIds st2 ∨ ∀ l1 l2, O = l1 ++ i :: l2 → s ∈ l2) :
    ∀ (n : Nat) (l1 : List String) (i : String) (l2 : List String),
      O = l1 ++ i :: l2 → l2.length < n →
      ∀ act2, getAct st2 i = some act2 →
      act2.early_finish ≤ lfVal pf res i act2 := by
  subst hres
  subst hpf
  subst hst2
  intro n
  induction n with
  | zero =>
    intro l1 i l2 _ hlen
    exact absurd hlen (Nat.not_lt_zero _)
  | succ n ih =>
    intro l1 i l2 hsplit hlen act2 hact2
    have hle_pf : act2.early_finish ≤ projectFinish (runForward st1 O) :=
      projectFinish_ge (getAct_eq_some hact2).1
    by_cases hsucc : act2.successors = []
    · unfold lfVal
      rw [if_pos hsucc]
      exact hle_pf
    · unfold lfVal
      rw [if_neg hsucc]
      refine bwdFold_ge_bound act2.successors _ hle_pf ?_
      intro s hs succ hgsucc e hfind
      have hiIds1 : i ∈ actIds st1 := by
        have h0 := mem_actIds.mpr ⟨act2, (getAct_eq_some hact2).1, (getAct_eq_some hact2).2⟩
        rwa [actIds_runForward] at h0
      have hsIds1 : s ∈ actIds st1 := by
        have h0 := mem_actIds.mpr ⟨succ, (getAct_eq_some hgsucc).1, (getAct_eq_some hgsucc).2⟩
        rwa [actIds_runBackward, actIds_runForward] at h0
      have hsO : s ∈ O := hMem s hsIds1
      rcases hg1s : getAct st1 s with _ | s1
      · exact absurd hsIds1 (getAct_eq_none.mp hg1s)
      rcases hg1i : getAct st1 i with _ | act1
      · exact absurd hiIds1 (getAct_eq_none.mp hg1i)
      have hchar2s := runForward_char hNo hT s hsO s1 hg1s
      have hchar2i := runForward_char hNo hT i (hMem i hiIds1) act1 hg1i
      have hchar3s := @runBackward_char (projectFinish (runForward st1 O))
        (runForward st1 O) O hNo hAfter s hsO _ hchar2s
      have hsuccEq := Option.some.inj (hgsucc.symm.trans hchar3s)
      have hact2Eq := Option.some.inj (hact2.symm.trans hchar2i)
      rcases findPredEntry_spec _ _ _ hfind with ⟨hemem, hei⟩
      have he1 : e ∈ s1.predecessors := by
        rw [hsuccEq] at hemem
        exact hemem
      have hne1 : s1.predecessors ≠ [] := by
        intro h0
        rw [h0] at he1
        exact absurd he1 (List.not_mem_nil _)
      have hfb : fwdCandidate e.rel_type e.lag act2 s1.duration ≤
          esVal (runForward st1 O) s1 := by
        unfold esVal
        rw [if_neg hne1]
        refine fwdFold_ge_candidate s1.predecessors 0 e act2 he1 ?_
        rw [hei]
        exact hact2
      have hie : i ∈ exPreds st1 s := mem_exPreds hg1s he1 hei (by rw [hg1i]; rfl)
      have hsl2 : s ∈ l2 := succ_after hNo hT hsO hie l1 l2 hsplit
      rcases List.append_of_mem hsl2 with ⟨la, lb, hl2⟩
      subst hl2
      have hsplit2 : O = (l1 ++ i :: la) ++ s :: lb := by
        rw [hsplit]
        simp [List.append_assoc]
      have hlb : lb.length < n := by
        simp [List.length_append] at hlen
        omega
      have hIH := ih (l1 ++ i :: la) s lb hsplit2 hlb _ hchar2s
      have hIH2 : esVal (runForward st1 O) s1 + s1.duration ≤
          lfVal (projectFinish (runForward st1 O))
            (runBackward (projectFinish (runForward st1 O)) (runForward st1 O) O.reverse) s
            { s1 with
              early_start := esVal (runForward st1 O) s1,
              early_finish := esVal (runForward st1 O) s1 + s1.duration } := hIH
      have hef2 : act2.early_finish = esVal (runForward st1 O) act1 + act1.duration := by
        rw [hact2Eq]
      have hes2 : act2.early_start = esVal (runForward st1 O) act1 := by
        rw [hact2Eq]
      have hdur2 : act2.duration = act1.duration := by
        rw [hact2Eq]
      have hlsS : succ.late_start = lfVal (projectFinish (runForward st1 O))
          (runBackward (projectFinish (runForward st1 O)) (runForward st1 O) O.reverse) s
          { s1 with
            early_start := esVal (runForward st1 O) s1,
            early_finish := esVal (runForward st1 O) s1 + s1.duration } - s1.duration := by
        rw [hsuccEq]
      have hlfS : succ.late_finish = lfVal (projectFinish (runForward st1 O))
          (runBackward (projectFinish (runForward st1 O)) (runForward st1 O) O.reverse) s
          { s1 with
            early_start := esVal (runForward st1 O) s1,
            early_finish := esVal (runForward st1 O) s1 + s1.duration } := by
        rw [hsuccEq]
      by_cases hFS : e.rel_type = "FS"
      · have hcand : bwdCandidate e.rel_type e.lag succ act2.duration =
            succ.late_start - e.lag := by
          unfold bwdCandidate
          rw [if_pos hFS]
        have hfc : fwdCandidate e.rel_type e.lag act2 s1.duration =
            act2.early_finish + e.lag := by
          unfold fwdCandidate
          rw [if_pos hFS]
        rw [hcand, hlsS, hef2]
        rw [hfc, hef2] at hfb
        linarith [hIH2]
      · by_cases hSS : e.rel_type = "SS"
        · have hcand : bwdCandidate e.rel_type e.lag succ act2.duration =
              succ.late_start - e.lag + act2.duration := by
            unfold bwdCandidate
            rw [if_neg hFS, if_pos hSS]
          have hfc : fwdCandidate e.rel_type e.lag act2 s1.duration =
              act2.early_start + e.lag := by
            unfold fwdCandidate
            rw [if_neg hFS, if_pos hSS]
          rw [hcand, hlsS, hef2, hdur2]
          rw [hfc, hes2] at hfb
          linarith [hIH2]
        · by_cases hFF : e.rel_type = "FF"
          · have hcand : bwdCandidate e.rel_type e.lag succ act2.duration =
                succ.late_finish - e.lag := by
              unfold bwdCandidate
              rw [if_neg hFS, if_neg hSS, if_pos hFF]
            have hfc : fwdCandidate e.rel_type e.lag act2 s1.duration =
                act2.early_finish + e.lag - s1.duration := by
              unfold fwdCandidate
              rw [if_neg hFS, if_neg hSS, if_pos hFF]
            rw [hcand, hlfS, hef2]
            rw [hfc, hef2] at hfb
            linarith [hIH2]
          · have hcand : bwdCandidate e.rel_type e.lag succ act2.duration =
                succ.late_start - e.lag := by
              unfold bwdCandidate
              rw [if_neg hFS, if_neg hSS, if_neg hFF]
            have hfc : fwdCandidate e.rel_type e.lag act2 s1.duration =
                act2.early_finish + e.lag := by
              unfold fwdCandidate
              rw [if_neg hFS, if_neg hSS, if_neg hFF]
            rw [hcand, hlsS, hef2]
            rw [hfc, hef2] at hfb
            linarith [hIH2]

/-! ## Claim theorems -/

/-- C10 (confirmed).  `compute_cpm` applied to an empty activity list
returns the empty list immediately: the `if not activities` guard fires
before `project_finish = max(...)` could be evaluated on an empty
sequence, so the call does not fail. -/
theorem c10_empty_input : compute_cpm [] = [] := rfl

/-- C1 (counterexample).  The claim's `SF` formula
(`predecessor.early_start + lag - duration`) is not what the code
computes.  In `exSF`, `B`'s only predecessor entry is an `SF` edge to `A`
(duration 2, `early_start` 0, `early_finish` 2) with lag 0: the claimed
candidate is `0 + 0 - 3 = -3`, yet the code's forward pass gives
`B.early_start = 2` (`A.early_finish + lag`, the default branch), which
matches neither `-3` nor a zero-clamped `0`. -/
theorem c1_counterexample :
    (getAct (compute_cpm exSF) "B").map Activity.early_start = some 2 ∧
    (getAct (compute_cpm exSF) "A").map Activity.early_start = some 0 ∧
    (getAct (compute_cpm exSF) "B").map Activity.duration = some 3 ∧
    ((0 : Int) + 0 - 3 ≠ 2 ∧ (0 : Int) ≠ 2) := by
  exact ⟨by decide, by decide, by decide, by decide, by decide⟩

/-- C1 (amended).  In the forward pass each predecessor edge contributes
a candidate early start of `early_finish + lag` for `FS`,
`early_start + lag` for `SS`, `early_finish + lag - duration` for `FF`;
an `SF` edge (like any unrecognized relation string) falls into the
`else` branch and contributes `early_finish + lag`, the `FS` formula, not
`early_start + lag - duration`.  In the `SS` example (`A` duration 5,
`B` with a single `SS` edge to `A`, lag 2), `B.early_start = 2`. -/
theorem c1_forward_relation_semantics (lag : Int) (pa : Activity) (dur : Int) :
    fwdCandidate "FS" lag pa dur = pa.early_finish + lag ∧
    fwdCandidate "SS" lag pa dur = pa.early_start + lag ∧
    fwdCandidate "FF" lag pa dur = pa.early_finish + lag - dur ∧
    fwdCandidate "SF" lag pa dur = pa.early_finish + lag ∧
    (getAct (compute_cpm exSS) "B").map Activity.early_start = some 2 := by
  exact ⟨rfl, rfl, rfl, rfl, by decide⟩

/-- C3 (counterexample).  In `exSF`, `A`'s only successor is `B`, linked
by an `SF` entry with lag 0; after `compute_cpm`, `B.late_start = 2` and
`B.late_finish = 5`.  The claim requires `A.late_finish` to invert the
spec's `SF` forward formula, giving `B.late_finish - lag + A.duration =
5 - 0 + 2 = 7` (or 5 after the project-finish seed).  The code instead
takes the `else` branch `B.late_start - lag` and stores
`A.late_finish = 2`. -/
theorem c3_counterexample :
    (getAct (compute_cpm exSF) "A").map Activity.late_finish = some 2 ∧
    (getAct (compute_cpm exSF) "B").map Activity.late_start = some 2 ∧
    (getAct (compute_cpm exSF) "B").map Activity.late_finish = some 5 ∧
    ((5 : Int) - 0 + 2 ≠ 2 ∧ (5 : Int) ≠ 2) := by
  exact ⟨by decide, by decide, by decide, by decide⟩

/-- C4 (counterexample).  In `cexFwd`, `B`'s only candidate is
`A.early_finish + lag = 1 + (-5) = -4`, which is negative, but the code's
`max_es` accumulator starts at 0, so `B.early_start = 0`, not the maximum
observed candidate `-4` that the claim requires. -/
theorem c4_counterexample :
    (getAct (compute_cpm cexFwd) "B").map Activity.early_start = some 0 ∧
    (getAct (compute_cpm cexFwd) "A").map (fun a => a.early_finish + (-5)) = some (-4) ∧
    some (0 : Int) ≠ some (-4 : Int) := by
  exact ⟨by decide, by decide, by decide⟩

/-- C5 (confirmed).  For an activity list with unique ids (the regime in
which the embedding's `act_map` lookup is faithful to the Python dict),
`detect_cycles` returns True iff the directed predecessor graph —
restricted to edges whose predecessor id exists in the list — contains a
directed cycle; `HasCycle` counts a self-loop as the one-step cycle. -/
theorem c5_detect_cycles_iff (acts : List Activity) (hN : (actIds acts).Nodup) :
    detect_cycles acts = true ↔ HasCycle acts := by
  constructor
  · exact hasCycle_of_detect
  · intro hc
    cases hb : detect_cycles acts with
    | false => exact absurd hc (no_cycle_of_detect_false hb)
    | true => rfl

/-- Witness for C5 at the concrete three-cycle input. -/
theorem c5_witness :
    (actIds cyc3).Nodup ∧ (detect_cycles cyc3 = true ↔ HasCycle cyc3) :=
  ⟨by decide, c5_detect_cycles_iff cyc3 (by decide)⟩

/-- C6 (amended).  For an activity list with unique ids and derived
successor lists (successors initially empty, then built by
`buildSuccessors`), the ordering `_topological_sort` returns contains
every activity id exactly once (it is duplicate-free, and the fallback
appends every never-reached id, so none is dropped).  When additionally
the input is acyclic (`detect_cycles` is False) and no activity names the
same predecessor twice, every activity appears after all of its existing
predecessors: any split of the order at `v` has all of `v`'s existing
predecessor ids in the preceding prefix. -/
theorem c6_topological_sort (acts : List Activity)
    (hN : (actIds acts).Nodup) (hE : ∀ a ∈ acts, a.successors = []) :
    ((_topological_sort (buildSuccessors acts)).Nodup ∧
     (∀ v, v ∈ _topological_sort (buildSuccessors acts) ↔ v ∈ actIds acts)) ∧
    (detect_cycles acts = false →
     (∀ a ∈ acts, (a.predecessors.map PredEntry.activity_id).Nodup) →
     ∀ o1 v o2, _topological_sort (buildSuccessors acts) = o1 ++ v :: o2 →
       ∀ p ∈ exPreds (buildSuccessors acts) v, p ∈ o1) := by
  refine ⟨topo_sort_nodup acts hN hE, ?_⟩
  intro hdet hD
  exact (topo_sort_topo acts hN hE hD (no_cycle_of_detect_false hdet)).2.2

/-- Witness for C6 at the concrete valid input `chainEx`. -/
theorem c6_witness :
    ((actIds chainEx).Nodup ∧ (∀ a ∈ chainEx, a.successors = []) ∧
      detect_cycles chainEx = false) ∧
    (∀ v, v ∈ _topological_sort (buildSuccessors chainEx) ↔ v ∈ actIds chainEx) :=
  ⟨⟨by decide, by decide, by decide⟩,
    ((c6_topological_sort chainEx (by decide) (by decide)).1).2⟩

/-- C7 (counterexample).  2026-03-07 is a Saturday; the claim requires
`day_to_date(0, saturday, skip_weekends=True)` to return the next working
day (Monday 2026-03-09), but the `while days_added < day_number` loop
never runs for offset 0, so the code returns the Saturday itself. -/
theorem c7_counterexample :
    day_to_date 0 (epochDay 2026 3 7) true = epochDay 2026 3 7 ∧
    weekday (epochDay 2026 3 7) = 5 ∧
    epochDay 2026 3 7 ≠ epochDay 2026 3 9 := by
  exact ⟨by decide, by decide, by decide⟩

/-- C7 (amended).  `day_to_date` with offset 0 returns the start date
unconditionally — also when the start date falls on a weekend.  The
second part of the claim holds: five working days from Monday 2026-03-02
(skipping the weekend) is Monday 2026-03-09. -/
theorem c7_day_to_date (start : Int) (skip : Bool) :
    day_to_date 0 start skip = start ∧
    day_to_date 5 (epochDay 2026 3 2) true = epochDay 2026 3 9 ∧
    weekday (epochDay 2026 3 2) = 0 := by
  exact ⟨rfl, by decide, by decide⟩

/-- C2 (counterexample).  `dupEx` has unique ids, non-negative durations,
passes `validate_predecessors` with no errors and `detect_cycles` reports
no cycle — yet after `compute_cpm`, activity `S` has `total_float = -6`.
The duplicate predecessor edge `S → X` (named twice) makes Kahn's
in-degree (2) exceed the single deduplicated successor entry, so `S` and
`T` are only appended by the fallback, in list order, and the backward
pass reads `T`'s still-initial late values. -/
theorem c2_counterexample :
    validate_predecessors dupEx = [] ∧
    detect_cycles dupEx = false ∧
    (∀ a ∈ dupEx, 0 ≤ a.duration) ∧
    (getAct (compute_cpm dupEx) "S").map Activity.total_float = some (-6) ∧
    ¬(0 : Int) ≤ -6 := by
  exact ⟨by decide, by decide, by decide, by decide, by decide⟩

/-- C6 (counterexample).  `dupEx` is acyclic (and passes validation), but
the ordering produced by `_topological_sort` is `[X, T, S]` while `S` is
a predecessor of `T`: with the duplicate edge `S → X` (named twice),
`S`'s in-degree 2 is only decremented once, Kahn's queue dries up, and
the fallback appends `T` before `S` in input-list order — violating "on
acyclic input every activity appears after all of its predecessors". -/
theorem c6_counterexample :
    detect_cycles dupEx = false ∧
    _topological_sort (buildSuccessors dupEx) = ["X", "T", "S"] ∧
    "S" ∈ predIds (buildSuccessors dupEx) "T" := by
  exact ⟨by decide, by decide, by decide⟩

/-- C8 (counterexample).  `dupEx` passes `validate_predecessors` and
`detect_cycles`, yet `compute_cpm` runs to completion and returns a
schedule in which `S` carries `total_float = -6`: the negative float is
silently stored on the activity.  The code has no consistency check and
no `SchedulingError` — no execution path raises. -/
theorem c8_counterexample :
    validate_predecessors dupEx = [] ∧
    detect_cycles dupEx = false ∧
    (getAct (compute_cpm dupEx) "S").map Activity.total_float = some (-6) := by
  exact ⟨by decide, by decide, by decide⟩

/-- C8 (amended).  `compute_cpm` performs no mid-computation consistency
check: it is a total function that always returns a schedule of the same
length as its input (there is no error path at all), and an internally
inconsistent result — here `X` with `total_float = -6` despite validation
and cycle checks passing — is returned silently rather than raised. -/
theorem c8_no_error_path :
    (∀ acts : List Activity, (compute_cpm acts).length = acts.length) ∧
    (getAct (compute_cpm dupEx) "X").map Activity.total_float = some (-6) := by
  exact ⟨length_compute_cpm, by decide⟩

/-- C2 (amended).  For an acyclic activity list (no validation errors,
`detect_cycles` False) with unique ids, initially empty successor lists,
non-negative durations and no duplicate predecessor edges, `compute_cpm`
returns a schedule in which every activity satisfies
`early_start ≤ early_finish`, `late_start ≤ late_finish` and
`total_float ≥ 0`. -/
theorem c2_schedule_consistency (acts : List Activity)
    (hN : (actIds acts).Nodup)
    (hE : ∀ a ∈ acts, a.successors = [])
    (hdur : ∀ a ∈ acts, 0 ≤ a.duration)
    (hD : ∀ a ∈ acts, (a.predecessors.map PredEntry.activity_id).Nodup)
    (hval : validate_predecessors acts = [])
    (hdet : detect_cycles acts = false) :
    ∀ a ∈ compute_cpm acts,
      a.early_start ≤ a.early_finish ∧ a.late_start ≤ a.late_finish ∧
      0 ≤ a.total_float := by
  by_cases hnil : acts = []
  · subst hnil
    intro a ha
    exact absurd ha (List.not_mem_nil a)
  · rcases topo_sort_topo acts hN hE hD (no_cycle_of_detect_false hdet) with ⟨hNo, hMemIff, hT⟩
    have hAfter := pipeline_hAfter acts hN hE hD hdet
    have hcc : compute_cpm acts = runBackward
        (projectFinish (runForward (buildSuccessors acts)
          (_topological_sort (buildSuccessors acts))))
        (runForward (buildSuccessors acts) (_topological_sort (buildSuccessors acts)))
        (_topological_sort (buildSuccessors acts)).reverse := by
      unfold compute_cpm
      rw [if_neg hnil]
    intro a ha
    rw [hcc] at ha
    set B := buildSuccessors acts with hB
    set T := _topological_sort B with hTdef
    set st2 := runForward B T with hst2
    set pfv := projectFinish st2 with hpfv
    set res := runBackward pfv st2 T.reverse with hresv
    have hMem : ∀ v ∈ actIds B, v ∈ T := by
      intro v hv
      have hv2 : v ∈ actIds (buildSuccessors acts) := hv
      rw [actIds_build] at hv2
      exact (hMemIff v).mpr hv2
    have hNres : (actIds res).Nodup := by
      rw [hresv, actIds_runBackward, hst2, actIds_runForward, hB, actIds_build]
      exact hN
    have hga := getAct_of_mem hNres ha
    obtain ⟨i, hi⟩ : ∃ i, a.activity_id = i := ⟨_, rfl⟩
    rw [hi] at hga
    have hiIds1 : i ∈ actIds B := by
      have h0 := mem_actIds.mpr ⟨a, ha, hi⟩
      rw [hresv, actIds_runBackward, hst2, actIds_runForward] at h0
      exact h0
    have hiO : i ∈ T := hMem _ hiIds1
    rcases hg1 : getAct B i with _ | act1
    · exact absurd hiIds1 (getAct_eq_none.mp hg1)
    have hchar2 := runForward_char hNo hT _ hiO act1 hg1
    rw [← hst2] at hchar2
    have hchar3 := @runBackward_char pfv st2 T hNo hAfter _ hiO _ hchar2
    rw [← hresv] at hchar3
    have haEq := Option.some.inj (hga.symm.trans hchar3)
    have hdur1 : 0 ≤ act1.duration := by
      have hbd := build_duration acts i
      rw [← hB, hg1] at hbd
      rcases hg0 : getAct acts i with _ | act0
      · rw [hg0] at hbd
        exact absurd hbd (by simp)
      · rw [hg0] at hbd
        simp only [Option.map_some'] at hbd
        rw [Option.some.inj hbd]
        exact hdur act0 (getAct_eq_some hg0).1
    rcases List.append_of_mem hiO with ⟨l1, l2, hsplit⟩
    have hEF := bwd_ef_le_lf hst2 hpfv hresv hNo hT hMem hAfter
      (l2.length + 1) l1 i l2 hsplit (Nat.lt_succ_self _) _ hchar2
    have hEF2 : esVal st2 act1 + act1.duration ≤ lfVal pfv res i
        { act1 with
          early_start := esVal st2 act1,
          early_finish := esVal st2 act1 + act1.duration } := hEF
    have h1 : a.early_start = esVal st2 act1 := by rw [haEq]
    have h2 : a.early_finish = esVal st2 act1 + act1.duration := by rw [haEq]
    have h3 : a.late_finish = lfVal pfv res i
        { act1 with
          early_start := esVal st2 act1,
          early_finish := esVal st2 act1 + act1.duration } := by rw [haEq]
    have h4 : a.late_start = lfVal pfv res i
        { act1 with
          early_start := esVal st2 act1,
          early_finish := esVal st2 act1 + act1.duration } - act1.duration := by rw [haEq]
    have h5 : a.total_float = lfVal pfv res i
        { act1 with
          early_start := esVal st2 act1,
          early_finish := esVal st2 act1 + act1.duration } - act1.duration -
        esVal st2 act1 := by rw [haEq]
    refine ⟨?_, ?_, ?_⟩
    · rw [h1, h2]
      linarith
    · rw [h4, h3]
      linarith
    · rw [h5]
      linarith

/-- Witness for C2 at the concrete valid input `chainEx`. -/
theorem c2_witness :
    ((actIds chainEx).Nodup ∧ (∀ a ∈ chainEx, a.successors = []) ∧
      (∀ a ∈ chainEx, 0 ≤ a.duration) ∧
      (∀ a ∈ chainEx, (a.predecessors.map PredEntry.activity_id).Nodup) ∧
      validate_predecessors chainEx = [] ∧ detect_cycles chainEx = false) ∧
    ∀ a ∈ compute_cpm chainEx,
      a.early_start ≤ a.early_finish ∧ a.late_start ≤ a.late_finish ∧
      0 ≤ a.total_float :=
  ⟨⟨by decide, by decide, by decide, by decide, by decide, by decide⟩,
    c2_schedule_consistency chainEx (by decide) (by decide) (by decide) (by decide)
      (by decide) (by decide)⟩

/-- C3 (amended).  The backward candidates are `late_start - lag` for
`FS`, `late_start - lag + duration` for `SS`, `late_finish - lag` for
`FF`, and an `SF` successor entry (like any unrecognized relation) takes
the `else` branch `late_start - lag` — the inversion of the *forward
default*, not of the spec's SF forward formula.  The relation and lag
come from the successor's own predecessor entry naming this activity
(`findPredEntry` inside `bwdFold`); `late_finish` is the `min_lf` fold
over the successors *seeded with `project_finish`* (so it is also at
most `project_finish`), and `late_start = late_finish - duration`. -/
theorem c3_backward_inversion (acts : List Activity)
    (hN : (actIds acts).Nodup)
    (hE : ∀ a ∈ acts, a.successors = [])
    (hD : ∀ a ∈ acts, (a.predecessors.map PredEntry.activity_id).Nodup)
    (hdet : detect_cycles acts = false) :
    (∀ (lag : Int) (s : Activity) (d : Int),
      bwdCandidate "FS" lag s d = s.late_start - lag ∧
      bwdCandidate "SS" lag s d = s.late_start - lag + d ∧
      bwdCandidate "FF" lag s d = s.late_finish - lag ∧
      bwdCandidate "SF" lag s d = s.late_start - lag) ∧
    ∀ i ∈ _topological_sort (buildSuccessors acts), ∀ act2,
      getAct (runForward (buildSuccessors acts) (_topological_sort (buildSuccessors acts))) i
        = some act2 →
      ∃ a, getAct (runBackward
          (projectFinish (runForward (buildSuccessors acts)
            (_topological_sort (buildSuccessors acts))))
          (runForward (buildSuccessors acts) (_topological_sort (buildSuccessors acts)))
          (_topological_sort (buildSuccessors acts)).reverse) i = some a ∧
        a.late_finish = lfVal
          (projectFinish (runForward (buildSuccessors acts)
            (_topological_sort (buildSuccessors acts))))
          (runBackward
            (projectFinish (runForward (buildSuccessors acts)
              (_topological_sort (buildSuccessors acts))))
            (runForward (buildSuccessors acts) (_topological_sort (buildSuccessors acts)))
            (_topological_sort (buildSuccessors acts)).reverse) i act2 ∧
        (act2.successors ≠ [] → a.late_finish = bwdFold
          (runBackward
            (projectFinish (runForward (buildSuccessors acts)
              (_topological_sort (buildSuccessors acts))))
            (runForward (buildSuccessors acts) (_topological_sort (buildSuccessors acts)))
            (_topological_sort (buildSuccessors acts)).reverse)
          i act2.duration act2.successors
          (projectFinish (runForward (buildSuccessors acts)
            (_topological_sort (buildSuccessors acts))))) ∧
        a.late_start = a.late_finish - act2.duration ∧
        a.late_finish ≤ projectFinish (runForward (buildSuccessors acts)
          (_topological_sort (buildSuccessors acts))) := by
  refine ⟨fun lag s d => ⟨rfl, rfl, rfl, rfl⟩, ?_⟩
  rcases topo_sort_topo acts hN hE hD (no_cycle_of_detect_false hdet) with ⟨hNo, hMemIff, hT⟩
  have hAfter := pipeline_hAfter acts hN hE hD hdet
  intro i hiO act2 hact2
  have hchar3 := @runBackward_char
    (projectFinish (runForward (buildSuccessors acts)
      (_topological_sort (buildSuccessors acts))))
    (runForward (buildSuccessors acts) (_topological_sort (buildSuccessors acts)))
    (_topological_sort (buildSuccessors acts)) hNo hAfter i hiO act2 hact2
  refine ⟨_, hchar3, rfl, ?_, rfl, lfVal_le_pf⟩
  intro hnesucc
  have h0 : lfVal
      (projectFinish (runForward (buildSuccessors acts)
        (_topological_sort (buildSuccessors acts))))
      (runBackward
        (projectFinish (runForward (buildSuccessors acts)
          (_topological_sort (buildSuccessors acts))))
        (runForward (buildSuccessors acts) (_topological_sort (buildSuccessors acts)))
        (_topological_sort (buildSuccessors acts)).reverse) i act2 = bwdFold
      (runBackward
        (projectFinish (runForward (buildSuccessors acts)
          (_topological_sort (buildSuccessors acts))))
        (runForward (buildSuccessors acts) (_topological_sort (buildSuccessors acts)))
        (_topological_sort (buildSuccessors acts)).reverse)
      i act2.duration act2.successors
      (projectFinish (runForward (buildSuccessors acts)
        (_topological_sort (buildSuccessors acts)))) := by
    unfold lfVal
    rw [if_neg hnesucc]
  exact h0

/-- Witness for C3 at `chainEx`, activity `A` (whose successor list after
building is `["B"]`). -/
theorem c3_witness :
    ((actIds chainEx).Nodup ∧ (∀ a ∈ chainEx, a.successors = []) ∧
      (∀ a ∈ chainEx, (a.predecessors.map PredEntry.activity_id).Nodup) ∧
      detect_cycles chainEx = false ∧
      "A" ∈ _topological_sort (buildSuccessors chainEx) ∧
      getAct (runForward (buildSuccessors chainEx)
          (_topological_sort (buildSuccessors chainEx))) "A" =
        some { activity_id := "A", duration := 2, successors := ["B"],
               early_finish := 2 }) ∧
    ∃ a, getAct (runBackward
        (projectFinish (runForward (buildSuccessors chainEx)
          (_topological_sort (buildSuccessors chainEx))))
        (runForward (buildSuccessors chainEx) (_topological_sort (buildSuccessors chainEx)))
        (_topological_sort (buildSuccessors chainEx)).reverse) "A" = some a ∧
      a.late_finish = lfVal
        (projectFinish (runForward (buildSuccessors chainEx)
          (_topological_sort (buildSuccessors chainEx))))
        (runBackward
          (projectFinish (runForward (buildSuccessors chainEx)
            (_topological_sort (buildSuccessors chainEx))))
          (runForward (buildSuccessors chainEx) (_topological_sort (buildSuccessors chainEx)))
          (_topological_sort (buildSuccessors chainEx)).reverse) "A"
        { activity_id := "A", duration := 2, successors := ["B"], early_finish := 2 } ∧
      (({ activity_id := "A", duration := 2, successors := ["B"],
          early_finish := 2 } : Activity).successors ≠ [] →
        a.late_finish = bwdFold
          (runBackward
            (projectFinish (runForward (buildSuccessors chainEx)
              (_topological_sort (buildSuccessors chainEx))))
            (runForward (buildSuccessors chainEx)
              (_topological_sort (buildSuccessors chainEx)))
            (_topological_sort (buildSuccessors chainEx)).reverse)
          "A" ({ activity_id := "A", duration := 2, successors := ["B"],
                 early_finish := 2 } : Activity).duration
          ({ activity_id := "A", duration := 2, successors := ["B"],
             early_finish := 2 } : Activity).successors
          (projectFinish (runForward (buildSuccessors chainEx)
            (_topological_sort (buildSuccessors chainEx))))) ∧
      a.late_start = a.late_finish -
        ({ activity_id := "A", duration := 2, successors := ["B"],
           early_finish := 2 } : Activity).duration ∧
      a.late_finish ≤ projectFinish (runForward (buildSuccessors chainEx)
        (_topological_sort (buildSuccessors chainEx))) :=
  ⟨⟨by decide, by decide, by decide, by decide, by decide, by decide⟩,
    (c3_backward_inversion chainEx (by decide) (by decide) (by decide) (by decide)).2
      "A" (by decide) _ (by decide)⟩

/-- C4 (amended).  The forward pass assigns, to an activity with
predecessors, `early_start = fwdFold ... 0`: the fold's accumulator
starts at 0, so the stored value is the maximum of 0 and all
predecessor-edge candidates — it is never negative, every candidate is a
lower bound, and when all candidates are negative the result is clamped
to 0 rather than the maximum observed candidate. -/
theorem c4_forward_max_clamped (acts : List Activity)
    (hN : (actIds acts).Nodup)
    (hE : ∀ a ∈ acts, a.successors = [])
    (hD : ∀ a ∈ acts, (a.predecessors.map PredEntry.activity_id).Nodup)
    (hdet : detect_cycles acts = false)
    (i : String) (hiO : i ∈ _topological_sort (buildSuccessors acts))
    (act1 : Activity) (hg : getAct (buildSuccessors acts) i = some act1) :
    ∃ a, getAct (runForward (buildSuccessors acts)
        (_topological_sort (buildSuccessors acts))) i = some a ∧
      a.early_start = esVal (runForward (buildSuccessors acts)
        (_topological_sort (buildSuccessors acts))) act1 ∧
      0 ≤ a.early_start ∧
      (act1.predecessors ≠ [] → a.early_start = fwdFold
        (runForward (buildSuccessors acts) (_topological_sort (buildSuccessors acts)))
        act1.duration act1.predecessors 0) ∧
      ∀ e ∈ act1.predecessors, ∀ pa, getAct
          (runForward (buildSuccessors acts) (_topological_sort (buildSuccessors acts)))
          e.activity_id = some pa →
        fwdCandidate e.rel_type e.lag pa act1.duration ≤ a.early_start := by
  rcases topo_sort_topo acts hN hE hD (no_cycle_of_detect_false hdet) with ⟨hNo, hMemIff, hT⟩
  have hchar := runForward_char hNo hT i hiO act1 hg
  refine ⟨_, hchar, rfl, esVal_nonneg, ?_, ?_⟩
  · intro hne
    have h0 : esVal (runForward (buildSuccessors acts)
        (_topological_sort (buildSuccessors acts))) act1 = fwdFold
        (runForward (buildSuccessors acts) (_topological_sort (buildSuccessors acts)))
        act1.duration act1.predecessors 0 := by
      unfold esVal
      rw [if_neg hne]
    exact h0
  · intro e he pa hpa
    have hne : act1.predecessors ≠ [] := by
      intro h0
      rw [h0] at he
      exact absurd he (List.not_mem_nil _)
    have h0 : esVal (runForward (buildSuccessors acts)
        (_topological_sort (buildSuccessors acts))) act1 = fwdFold
        (runForward (buildSuccessors acts) (_topological_sort (buildSuccessors acts)))
        act1.duration act1.predecessors 0 := by
      unfold esVal
      rw [if_neg hne]
    have h1 := @fwdFold_ge_candidate
      (runForward (buildSuccessors acts) (_topological_sort (buildSuccessors acts)))
      act1.duration act1.predecessors 0 e pa he hpa
    exact le_of_le_of_eq h1 h0.symm

/-- Witness for C4 at `cexFwd`, activity `B` (single `FS` edge to `A`
with lag `-5`: the only candidate is negative and the stored
`early_start` is 0). -/
theorem c4_witness :
    (((actIds cexFwd).Nodup ∧ (∀ a ∈ cexFwd, a.successors = []) ∧
      (∀ a ∈ cexFwd, (a.predecessors.map PredEntry.activity_id).Nodup) ∧
      detect_cycles cexFwd = false) ∧
      "B" ∈ _topological_sort (buildSuccessors cexFwd) ∧
      getAct (buildSuccessors cexFwd) "B" =
        some (mkActivity "B" 0 [{ activity_id := "A", lag := -5 }])) ∧
    ∃ a, getAct (runForward (buildSuccessors cexFwd)
        (_topological_sort (buildSuccessors cexFwd))) "B" = some a ∧
      a.early_start = esVal (runForward (buildSuccessors cexFwd)
        (_topological_sort (buildSuccessors cexFwd)))
        (mkActivity "B" 0 [{ activity_id := "A", lag := -5 }]) ∧
      0 ≤ a.early_start ∧
      ((mkActivity "B" 0 [{ activity_id := "A", lag := -5 }]).predecessors ≠ [] →
        a.early_start = fwdFold
          (runForward (buildSuccessors cexFwd) (_topological_sort (buildSuccessors cexFwd)))
          (mkActivity "B" 0 [{ activity_id := "A", lag := -5 }]).duration
          (mkActivity "B" 0 [{ activity_id := "A", lag := -5 }]).predecessors 0) ∧
      ∀ e ∈ (mkActivity "B" 0 [{ activity_id := "A", lag := -5 }]).predecessors, ∀ pa,
        getAct (runForward (buildSuccessors cexFwd)
          (_topological_sort (buildSuccessors cexFwd))) e.activity_id = some pa →
        fwdCandidate e.rel_type e.lag pa
          (mkActivity "B" 0 [{ activity_id := "A", lag := -5 }]).duration ≤
          a.early_start :=
  ⟨⟨⟨by decide, by decide, by decide, by decide⟩, by decide, by decide⟩,
    c4_forward_max_clamped cexFwd (by decide) (by decide) (by decide) (by decide)
      "B" (by decide) (mkActivity "B" 0 [{ activity_id := "A", lag := -5 }]) (by decide)⟩

/-- C9 (confirmed, for unique-id inputs with initially empty successor
lists).  The backward pass seeds its minimum with `project_finish`, so
after `compute_cpm` every activity's `late_finish` is at most
`project_finish` — the maximum `early_finish` over the returned
activities (the backward pass preserves `early_finish`, so this is the
same anchor the code computes after the forward pass).  Every
`early_finish` is bounded by it as well. -/
theorem c9_late_dates_anchored (acts : List Activity) (hne : acts ≠ [])
    (hN : (actIds acts).Nodup) (hE : ∀ a ∈ acts, a.successors = []) :
    ∀ a ∈ compute_cpm acts,
      a.late_finish ≤ projectFinish (compute_cpm acts) ∧
      a.early_finish ≤ projectFinish (compute_cpm acts) := by
  have hcc : compute_cpm acts = runBackward
      (projectFinish (runForward (buildSuccessors acts)
        (_topological_sort (buildSuccessors acts))))
      (runForward (buildSuccessors acts) (_topological_sort (buildSuccessors acts)))
      (_topological_sort (buildSuccessors acts)).reverse := by
    unfold compute_cpm
    rw [if_neg hne]
  rcases topo_sort_nodup acts hN hE with ⟨hNo, hMemIff⟩
  rcases runBackward_eq_map
      (projectFinish (runForward (buildSuccessors acts)
        (_topological_sort (buildSuccessors acts))))
      (_topological_sort (buildSuccessors acts)).reverse
      (runForward (buildSuccessors acts) (_topological_sort (buildSuccessors acts)))
    with ⟨G, hmap, hGs⟩
  have hG_ef : ∀ b, (G b).early_finish = b.early_finish := fun b => (hGs b).2.2.2.2.2
  have hpfres : projectFinish (compute_cpm acts) = projectFinish
      (runForward (buildSuccessors acts) (_topological_sort (buildSuccessors acts))) := by
    rw [hcc, hmap]
    exact projectFinish_map hG_ef
  intro a ha
  constructor
  · rw [hpfres]
    rw [hcc] at ha
    refine runBackward_lf_le
      (projectFinish (runForward (buildSuccessors acts)
        (_topological_sort (buildSuccessors acts))))
      (_topological_sort (buildSuccessors acts)).reverse
      (runForward (buildSuccessors acts) (_topological_sort (buildSuccessors acts)))
      ?_ a ha
    intro b hb
    left
    rw [List.mem_reverse]
    refine (hMemIff b.activity_id).mpr ?_
    have h0 := mem_actIds.mpr ⟨b, hb, rfl⟩
    rwa [actIds_runForward, actIds_build] at h0
  · rw [hpfres]
    rw [hcc, hmap] at ha
    rcases List.mem_map.mp ha with ⟨b, hb, hbG⟩
    rw [← hbG, hG_ef b]
    exact projectFinish_ge hb

/-- Witness for C9 at `chainEx`. -/
theorem c9_witness :
    (chainEx ≠ [] ∧ (actIds chainEx).Nodup ∧ (∀ a ∈ chainEx, a.successors = [])) ∧
    ∀ a ∈ compute_cpm chainEx,
      a.late_finish ≤ projectFinish (compute_cpm chainEx) ∧
      a.early_finish ≤ projectFinish (compute_cpm chainEx) :=
  ⟨⟨by decide, by decide, by decide⟩,
    c9_late_dates_anchored chainEx (by decide) (by decide) (by decide)⟩

end Dabo
